import Mathlib

/-!
Verification development for the `json-comments` repository.

The repository provides two commented-JSON cleaners:

* `cJSONStr` — a buffer cleaner: `re.split("(\".*\"|'.*'|#[^\r\n]*|//[^\r\n]*)", s, re.MULTILINE)`
  followed by dropping the parts that start with a comment marker and
  stripping plain spaces from every kept part.  Note that `re.MULTILINE`
  (value 8) is passed positionally as `re.split`'s `maxsplit` argument.
* `cJSONFile` — a streaming cleaner wrapping a line-oriented text source:
  it drops whole-line comments and cleans each remaining line with
  `re.split("(\".*\"|'.*'|#.*|//.*)", line)` (unlimited `maxsplit`),
  filtering parts through `_is_comment` (strip all whitespace, then test
  the `//` or `#` text markers).

We embed the regex-split shallowly: the four alternatives start with
distinct characters, so at each position at most one alternative can
match; scanning is leftmost with greedy quote matching (a quoted
alternative extends to the last closing quote occurring before the next
newline character).
-/

namespace JsonComments

/-- The double-quote character, written by code point to keep source plain. -/
def dq : Char := Char.ofNat 34

/-- The single-quote character, written by code point. -/
def sq : Char := Char.ofNat 39

/-- Python `str.strip()` whitespace set (ASCII part, which is all the repo uses). -/
def pyWs (c : Char) : Bool :=
  c = ' ' || c = '\t' || c = '\n' || c = '\r' || c = Char.ofNat 11 || c = Char.ofNat 12

/-- A character is the plain space character (Python `strip(" ")`). -/
def isSp (c : Char) : Bool := c = ' '

/-- Strip characters satisfying `p` from both ends of a character list. -/
def stripBy (p : Char → Bool) (s : List Char) : List Char :=
  ((s.dropWhile p).reverse.dropWhile p).reverse

/-- Python `str.strip(" ")`: strip plain spaces from both ends. -/
def stripSpaces (s : List Char) : List Char := stripBy isSp s

/-- Python `str.strip()`: strip all whitespace from both ends. -/
def stripWs (s : List Char) : List Char := stripBy pyWs s

/-- Delete every plain space character (used to compare results modulo
space trimming granularity). -/
def eraseSpaces (s : List Char) : List Char := s.filter (fun c => !isSp c)

/-- Split a list at the LAST occurrence of `q`: returns `(a, b)` with
`l = a ++ q :: b` and `q ∉ b`, or `none` if `q` does not occur. -/
def splitAtLast (q : Char) : List Char → Option (List Char × List Char)
  | [] => none
  | c :: cs =>
    match splitAtLast q cs with
    | some (a, b) => some (c :: a, b)
    | none => if c = q then some ([], cs) else none

/-- Comment stop set of the buffer cleaner's regex (`#[^\r\n]*`). -/
def stopB (c : Char) : Bool := c = '\r' || c = '\n'

/-- Comment stop set of the per-line cleaner's regex (`#.*`, `.` only
excludes the newline). -/
def stopL (c : Char) : Bool := c = '\n'

/-- Try to match one regex alternative at the head of `s`.  The four
alternatives begin with distinct characters (`"`, `'`, `#`, `//`), so the
pattern-priority order never matters.  A quoted alternative is greedy: it
extends to the last closing quote before the next newline.  Returns the
matched token and the remaining input. -/
def tryTok (stop : Char → Bool) : List Char → Option (List Char × List Char)
  | [] => none
  | c :: t =>
    if c = dq then
      match splitAtLast dq (t.takeWhile (· ≠ '\n')) with
      | some (a, b) => some (dq :: a ++ [dq], b ++ t.dropWhile (· ≠ '\n'))
      | none => none
    else if c = sq then
      match splitAtLast sq (t.takeWhile (· ≠ '\n')) with
      | some (a, b) => some (sq :: a ++ [sq], b ++ t.dropWhile (· ≠ '\n'))
      | none => none
    else if c = '#' then
      some ('#' :: t.takeWhile (fun x => !stop x), t.dropWhile (fun x => !stop x))
    else
      match t with
      | d :: t2 =>
        if c = '/' ∧ d = '/' then
          some ('/' :: '/' :: t2.takeWhile (fun x => !stop x),
                t2.dropWhile (fun x => !stop x))
        else none
      | [] => none

/-- Scan left to right for the first position where a regex alternative
matches.  `pre` accumulates (reversed) the characters skipped so far; the
result is `(plain prefix, token, rest)`. -/
def findTok (stop : Char → Bool) : List Char → List Char → Option (List Char × List Char × List Char)
  | _, [] => none
  | pre, c :: cs =>
    match tryTok stop (c :: cs) with
    | some (t, r) => some (pre.reverse, t, r)
    | none => findTok stop (c :: pre) cs

/-- Fuel-driven splitter implementing `re.split` with a capture group:
the result alternates text parts (tagged `false`) and matched tokens
(tagged `true`).  `ms` is Python's `maxsplit` (`0` means unlimited); once
`ms` splits have been produced, the remainder of the string is returned
as the final text part.  The fuel argument only makes the recursion
structural; `reSplit` always supplies enough fuel. -/
def reSplitF (stop : Char → Bool) : Nat → Nat → List Char → List (Bool × List Char)
  | 0, _, s => [(false, s)]
  | fuel + 1, ms, s =>
    match findTok stop [] s with
    | none => [(false, s)]
    | some (p, t, r) =>
      if ms = 1 then [(false, p), (true, t), (false, r)]
      else (false, p) :: (true, t) :: reSplitF stop fuel (ms - 1) r

/-- `re.split(pattern, s, maxsplit := ms)` with the capture group kept. -/
def reSplit (stop : Char → Bool) (ms : Nat) (s : List Char) : List (Bool × List Char) :=
  reSplitF stop (s.length + 1) ms s

/-- The buffer cleaner's part filter:
`not (p.startswith("//") or p.startswith("#"))`. -/
def keepB (p : List Char) : Bool :=
  !(['/', '/'].isPrefixOf p || ['#'].isPrefixOf p)

/-- `cJSONFile._is_comment` on a character list: strip all whitespace,
then test for a leading `//` or `#`. -/
def isCommentL (l : List Char) : Bool :=
  ['/', '/'].isPrefixOf (stripWs l) || ['#'].isPrefixOf (stripWs l)

/-- Join the parts of a split, dropping those rejected by `keep` and
stripping plain spaces from each kept part (the common shape of both
cleaners). -/
def joinKept (keep : List Char → Bool) (parts : List (Bool × List Char)) : List Char :=
  (((parts.map Prod.snd).filter keep).map stripSpaces).flatten

/-- `cJSONStr._clean`: split the whole buffer with `maxsplit = 8`
(the accidental value of `re.MULTILINE`), drop marker-prefixed parts,
strip spaces, join. -/
def cJSONStr_clean (s : String) : String :=
  ⟨joinKept keepB (reSplit stopB 8 s.data)⟩

/-- `cJSONFile._is_comment` on a string. -/
def cJSONFile_is_comment (l : String) : Bool := isCommentL l.data

/-- Does the list contain two adjacent slashes (Python `"//" in line`)? -/
def hasDoubleSlash : List Char → Bool
  | [] => false
  | [_] => false
  | a :: b :: t => (a = '/' && b = '/') || hasDoubleSlash (b :: t)

/-- Does the line contain a comment marker (`"#" in line or "//" in line`)? -/
def containsMarker (l : List Char) : Bool :=
  l.contains '#' || hasDoubleSlash l

/-- `cJSONFile._clean`: strip trailing comments from one line.  When the
line holds no marker it is returned verbatim; otherwise it is split with
unlimited `maxsplit`, parts classified as comments by `_is_comment` are
dropped, and kept parts are space-stripped and joined. -/
def cJSONFile_clean (l : String) : String :=
  if containsMarker l.data then
    ⟨joinKept (fun p => !isCommentL p) (reSplit stopL 0 l.data)⟩
  else l

/-- Python exception kinds surfaced by the streaming cleaner. -/
inductive PyErr
  | valueError
  | attributeError
  | typeError
  | stopIteration
deriving DecidableEq, Repr

/-- State of a `cJSONFile` wrapper: construction arguments plus the
underlying handle, modelled as the remaining lines (`none` when closed,
mirroring `self._file = None`). -/
structure JFile where
  file_path : String
  mode : String
  encoding : String
  file : Option (List String)
deriving DecidableEq, Repr

/-- The tuple of binary modes rejected by `cJSONFile.__init__`. -/
def binary_modes : List String := ["rb", "rb+", "wb", "wb+", "ab", "xb", "xb+"]

/-- A mode string requesting binary access (contains the `b` flag), per
Python's `open` mode grammar. -/
def isBinaryMode (mode : String) : Bool := mode.data.contains 'b'

/-- `cJSONFile.__init__`: modes in the `binary_modes` tuple are rejected
with an explicit `ValueError`; otherwise `__init__` ends in
`self._file = self._open()`, and `_open` calls
`open(file_path, mode, encoding=encoding)`.  `encoding` is always a
string here, as in the source (default `"utf-8"`), and Python's `open`
raises `ValueError` (binary mode doesn't take an encoding argument) for
any mode containing the `b` flag before the filesystem is touched — so
the binary spellings missing from the tuple, such as `"ab+"`, also fail
with `ValueError` during construction.  The file system is a function
from paths to line lists on which every path is readable; `open`'s
remaining mode-grammar and I/O errors (malformed mode strings, missing
files) distinguish no claim and are idealised away.  No error branch
consults the file system. -/
def cJSONFile_init (fs : String → List String) (path mode encoding : String) :
    Except PyErr JFile :=
  if binary_modes.contains mode then .error .valueError
  else if isBinaryMode mode then .error .valueError
  else .ok ⟨path, mode, encoding, some (fs path)⟩

/-- `cJSONFile._close`: `self._file.close(); self._file = None`.  When the
handle is already `None`, the attribute access `None.close` raises
`AttributeError`. -/
def closeJ (st : JFile) : Except PyErr JFile :=
  match st.file with
  | none => .error .attributeError
  | some _ => .ok { st with file := none }

/-- `cJSONFile.__exit__`: unconditionally calls `_close`. -/
def exitJ (st : JFile) : Except PyErr JFile := closeJ st

/-- `cJSONFile.__enter__`: reopen if the handle is `None`, return self. -/
def enterJ (fs : String → List String) (st : JFile) : JFile :=
  match st.file with
  | none => { st with file := some (fs st.file_path) }
  | some _ => st

/-- `cJSONFile.__iter__`: reopen if the handle is falsy (`None`), return self. -/
def iterJ (fs : String → List String) (st : JFile) : JFile :=
  match st.file with
  | none => { st with file := some (fs st.file_path) }
  | some _ => st

/-- One `next(self._file)` loop of `cJSONFile.__next__` on the remaining
lines: skip comment lines; on exhaustion close and raise `StopIteration`
(the closed handle is `none`). -/
def nextAux : List String → Except PyErr String × Option (List String)
  | [] => (.error .stopIteration, none)
  | l :: r =>
    if cJSONFile_is_comment l then nextAux r
    else (.ok (cJSONFile_clean l), some r)

/-- `cJSONFile.__next__`: `next(None)` is a `TypeError`; otherwise run the
skip loop. -/
def nextJ (st : JFile) : Except PyErr String × JFile :=
  match st.file with
  | none => (.error .typeError, st)
  | some ls =>
    match nextAux ls with
    | (o, f) => (o, { st with file := f })

/-- Repeated `__next__` calls until `StopIteration`: the produced lines
together with the handle left by the final (failing) call, which runs
`nextAux` on the exhausted input and therefore closes. -/
def drainGo : List String → List String × Option (List String)
  | [] => ([], (nextAux []).2)
  | l :: r =>
    if cJSONFile_is_comment l then drainGo r
    else (cJSONFile_clean l :: (drainGo r).1, (drainGo r).2)

/-- Iterate the wrapper to exhaustion: `__iter__`, then `__next__` until
`StopIteration`, collecting the produced lines and the final state. -/
def drainJ (fs : String → List String) (st : JFile) : List String × JFile :=
  match (iterJ fs st).file with
  | none => ([], iterJ fs st)
  | some ls => ((drainGo ls).1, { iterJ fs st with file := (drainGo ls).2 })

/-- `cJSONFile.readlines`: all cleaned non-comment lines of the remaining
input. -/
def readlinesJ (lines : List String) : List String :=
  (lines.filter (fun l => !cJSONFile_is_comment l)).map cJSONFile_clean

/-- `cJSONFile.read`: `"".join(self.readlines())`. -/
def readJ (lines : List String) : String :=
  ⟨((readlinesJ lines).map String.data).flatten⟩

/-- `cJSONFile.readline`: skip comment lines, return the next cleaned line
or the empty string at end of stream (no exception). -/
def readlineJ : List String → String × List String
  | [] => ("", [])
  | l :: r =>
    if cJSONFile_is_comment l then readlineJ r
    else (cJSONFile_clean l, r)

/-- The delegated metadata attributes the claims speak about. -/
inductive FileAttr
  | closedAttr
  | nameAttr
  | modeAttr
deriving DecidableEq, Repr

/-- A delegated attribute value. -/
inductive AttrVal
  | boolV (b : Bool)
  | strV (s : String)
deriving DecidableEq, Repr

/-- Does Python's `None` object expose the attribute?  `NoneType` has none
of `closed`, `name`, `mode`. -/
def noneHasAttr (_ : FileAttr) : Bool := false

/-- `cJSONFile.__getattr__` for the delegated metadata: when the handle is
open, forward to the file object (an open text file reports
`closed = False`, its `name` and its `mode`); when the wrapper is closed,
`self._file` is `None`, `hasattr(None, attribute)` is false, and the
method raises `AttributeError`. -/
def getattrJ (st : JFile) (a : FileAttr) : Except PyErr AttrVal :=
  match st.file with
  | some _ =>
    .ok (match a with
      | .closedAttr => .boolV false
      | .nameAttr => .strV st.file_path
      | .modeAttr => .strV st.mode)
  | none =>
    if noneHasAttr a then .ok (.boolV false) else .error .attributeError

/-- Concatenate raw lines into one buffer (no separator). -/
def concatLines (ls : List String) : String :=
  ⟨(ls.map String.data).flatten⟩

/-- No quote characters and no comment markers occur in the text. -/
def noQuoteNoMarker (s : List Char) : Bool :=
  !s.contains dq && !s.contains sq && !s.contains '#' && !hasDoubleSlash s

/-- No comment marker occurs anywhere in the text (so in particular no
comment token occurs outside a quoted literal). -/
def noMarker (s : List Char) : Bool :=
  !s.contains '#' && !hasDoubleSlash s

/-! ## Basic scanner lemmas -/

theorem splitAtLast_none {q : Char} : ∀ {l : List Char},
    splitAtLast q l = none → q ∉ l := by
  intro l
  induction l with
  | nil => intro _; simp
  | cons c cs ih =>
    intro h
    unfold splitAtLast at h
    cases hs : splitAtLast q cs with
    | some ab => rw [hs] at h; cases h
    | none =>
      rw [hs] at h
      by_cases hc : c = q
      · simp [hc] at h
      · simp [hc]
        exact ⟨fun he => hc he.symm, ih hs⟩

theorem splitAtLast_some {q : Char} : ∀ {l a b : List Char},
    splitAtLast q l = some (a, b) → l = a ++ q :: b ∧ q ∉ b := by
  intro l
  induction l with
  | nil => intro a b h; simp [splitAtLast] at h
  | cons c cs ih =>
    intro a b h
    unfold splitAtLast at h
    cases hs : splitAtLast q cs with
    | some ab =>
      obtain ⟨a0, b0⟩ := ab
      rw [hs] at h
      obtain ⟨h1, h2⟩ := ih hs
      simp at h
      obtain ⟨ha, hb⟩ := h
      subst ha hb
      exact ⟨by rw [h1, List.cons_append], h2⟩
    | none =>
      rw [hs] at h
      by_cases hc : c = q
      · simp [hc] at h
        obtain ⟨ha, hb⟩ := h
        subst ha hb
        exact ⟨by simp [hc], splitAtLast_none hs⟩
      · simp [hc] at h

theorem splitAtLast_last {q : Char} (a b : List Char) (hb : q ∉ b) :
    splitAtLast q (a ++ q :: b) = some (a, b) := by
  induction a with
  | nil =>
    unfold splitAtLast
    cases hs : splitAtLast q b with
    | some ab =>
      obtain ⟨a0, b0⟩ := ab
      obtain ⟨h1, _⟩ := splitAtLast_some hs
      exact absurd (h1 ▸ List.mem_append_right a0 (List.mem_cons_self q b0)) hb
    | none => simp [hs]
  | cons c cs ih =>
    rw [List.cons_append]
    unfold splitAtLast
    rw [ih]

theorem hasDoubleSlash_iff : ∀ l : List Char,
    hasDoubleSlash l = true ↔ ∃ x y, l = x ++ '/' :: '/' :: y := by
  intro l
  match l with
  | [] =>
    simp [hasDoubleSlash]
  | [a] =>
    simp [hasDoubleSlash]
    intro x y h
    have := congrArg List.length h
    simp at this
    omega
  | a :: b :: t =>
    constructor
    · intro h
      rw [hasDoubleSlash] at h
      rcases (by simpa using h : (a = '/' ∧ b = '/') ∨ hasDoubleSlash (b :: t) = true) with h1 | h2
      · obtain ⟨ha, hb⟩ := h1
        exact ⟨[], t, by simp [ha, hb]⟩
      · obtain ⟨x, y, hxy⟩ := (hasDoubleSlash_iff (b :: t)).mp h2
        exact ⟨a :: x, y, by rw [List.cons_append, ← hxy]⟩
    · rintro ⟨x, y, hxy⟩
      unfold hasDoubleSlash
      match x, hxy with
      | [], hxy =>
        simp at hxy
        obtain ⟨rfl, rfl, rfl⟩ := hxy
        simp
      | c :: x2, hxy =>
        simp at hxy
        obtain ⟨rfl, h2⟩ := hxy
        have : hasDoubleSlash (b :: t) = true :=
          (hasDoubleSlash_iff (b :: t)).mpr ⟨x2, y, h2⟩
        simp [this]

theorem hasDoubleSlash_sub {a b : List Char} (h : a <:+: b)
    (ha : hasDoubleSlash a = true) : hasDoubleSlash b = true := by
  obtain ⟨u, v, rfl⟩ := h
  obtain ⟨x, y, rfl⟩ := (hasDoubleSlash_iff a).mp ha
  exact (hasDoubleSlash_iff _).mpr ⟨u ++ x, y ++ v, by simp⟩

theorem hasDoubleSlash_append_left {a : List Char} (x : List Char)
    (h : hasDoubleSlash a = true) : hasDoubleSlash (a ++ x) = true :=
  hasDoubleSlash_sub ⟨[], x, by simp⟩ h

theorem isPrefixOf_one {c : Char} {p : List Char} :
    [c].isPrefixOf p = true ↔ ∃ rest, p = c :: rest := by
  cases p with
  | nil => simp [List.isPrefixOf]
  | cons d rest =>
    simp [List.isPrefixOf]
    exact eq_comm

theorem isPrefixOf_two {c d : Char} {p : List Char} :
    [c, d].isPrefixOf p = true ↔ ∃ rest, p = c :: d :: rest := by
  cases p with
  | nil => simp [List.isPrefixOf]
  | cons e rest =>
    cases rest with
    | nil => simp [List.isPrefixOf]
    | cons f rest2 =>
      simp [List.isPrefixOf]
      exact ⟨fun h => ⟨h.1.symm, h.2.symm⟩, fun h => ⟨h.1.symm, h.2.symm⟩⟩

theorem dropWhile_eq_self_of_head {p : Char → Bool} : ∀ {l : List Char},
    (∀ c ∈ l.head?, p c = false) → l.dropWhile p = l := by
  intro l h
  cases l with
  | nil => rfl
  | cons c cs =>
    have hc : p c = false := h c rfl
    simp [List.dropWhile, hc]

theorem head_dropWhile_false {p : Char → Bool} : ∀ (l : List Char),
    ∀ c ∈ (l.dropWhile p).head?, p c = false := by
  intro l
  induction l with
  | nil => intro c hc; cases hc
  | cons d ds ih =>
    intro c hc
    by_cases hd : p d
    · rw [List.dropWhile_cons_of_pos hd] at hc
      exact ih c hc
    · rw [List.dropWhile_cons_of_neg hd] at hc
      cases hc
      exact eq_false_of_ne_true hd

theorem stripBy_decomp (p : Char → Bool) (s : List Char) :
    ∃ a b, s = a ++ stripBy p s ++ b ∧ (∀ c ∈ a, p c = true) ∧ (∀ c ∈ b, p c = true) := by
  refine ⟨s.takeWhile p, ((s.dropWhile p).reverse.takeWhile p).reverse, ?_, ?_, ?_⟩
  · have hd : s.dropWhile p =
        stripBy p s ++ ((s.dropWhile p).reverse.takeWhile p).reverse := by
      have hrev : (s.dropWhile p).reverse =
          (s.dropWhile p).reverse.takeWhile p ++ (s.dropWhile p).reverse.dropWhile p := by
        rw [List.takeWhile_append_dropWhile]
      calc s.dropWhile p = (s.dropWhile p).reverse.reverse := by rw [List.reverse_reverse]
        _ = ((s.dropWhile p).reverse.takeWhile p ++ (s.dropWhile p).reverse.dropWhile p).reverse := by
            rw [← hrev]
        _ = stripBy p s ++ ((s.dropWhile p).reverse.takeWhile p).reverse := by
            rw [List.reverse_append]; rfl
    conv_lhs => rw [← List.takeWhile_append_dropWhile (p := p) (l := s), hd]
    rw [List.append_assoc]
  · intro c hc
    exact List.mem_takeWhile_imp hc
  · intro c hc
    exact List.mem_takeWhile_imp (List.mem_reverse.mp hc)

theorem stripBy_sub (p : Char → Bool) (s : List Char) : stripBy p s <:+: s := by
  obtain ⟨a, b, h, _, _⟩ := stripBy_decomp p s
  exact ⟨a, b, h.symm⟩

theorem stripBy_cons_head {p : Char → Bool} {c : Char} (xs : List Char)
    (hc : p c = false) : ∃ ys, stripBy p (c :: xs) = c :: ys := by
  unfold stripBy
  have h1 : List.dropWhile p (c :: xs) = c :: xs := by
    refine dropWhile_eq_self_of_head ?_
    intro d hd
    simp at hd
    rw [← hd]
    exact hc
  rw [h1, List.reverse_cons, List.dropWhile_append]
  by_cases he : (xs.reverse.dropWhile p).isEmpty = true
  · rw [if_pos he]
    have h2 : List.dropWhile p [c] = [c] := by simp [List.dropWhile, hc]
    rw [h2]
    exact ⟨[], by simp⟩
  · rw [if_neg he]
    exact ⟨(xs.reverse.dropWhile p).reverse, by simp⟩

theorem stripBy_eq_self {p : Char → Bool} {s : List Char}
    (hh : ∀ c ∈ s.head?, p c = false) (hl : ∀ c ∈ s.getLast?, p c = false) :
    stripBy p s = s := by
  unfold stripBy
  rw [dropWhile_eq_self_of_head hh]
  rw [dropWhile_eq_self_of_head (by rw [List.head?_reverse]; exact hl)]
  rw [List.reverse_reverse]

theorem stripBy_head_false (p : Char → Bool) (s : List Char) :
    ∀ c ∈ (stripBy p s).head?, p c = false := by
  intro c hc
  unfold stripBy at hc
  have hpref : ((s.dropWhile p).reverse.dropWhile p).reverse <+: s.dropWhile p := by
    have hsuf : List.dropWhile p ((s.dropWhile p).reverse) <:+ (s.dropWhile p).reverse :=
      List.dropWhile_suffix (l := (s.dropWhile p).reverse) p
    have hp2 := List.reverse_prefix.mpr hsuf
    rw [List.reverse_reverse] at hp2
    exact hp2
  obtain ⟨t, ht⟩ := hpref
  cases hrs : ((s.dropWhile p).reverse.dropWhile p).reverse with
  | nil => rw [hrs] at hc; cases hc
  | cons d ds =>
    rw [hrs] at hc ht
    cases hc
    have : (s.dropWhile p).head? = some c := by
      rw [← ht]
      rfl
    exact head_dropWhile_false s c this

theorem stripBy_getLast_false (p : Char → Bool) (s : List Char) :
    ∀ c ∈ (stripBy p s).getLast?, p c = false := by
  intro c hc
  unfold stripBy at hc
  rw [← List.head?_reverse, List.reverse_reverse] at hc
  exact head_dropWhile_false _ c hc

theorem stripBy_idem (p : Char → Bool) (s : List Char) :
    stripBy p (stripBy p s) = stripBy p s :=
  stripBy_eq_self (stripBy_head_false p s) (stripBy_getLast_false p s)

theorem hasDoubleSlash_short : ∀ l : List Char, l.length ≤ 1 → hasDoubleSlash l = false := by
  intro l h
  match l with
  | [] => rfl
  | [_] => rfl
  | _ :: _ :: _ => simp at h

theorem hasDoubleSlash_cons_elim {c : Char} {l : List Char}
    (h : hasDoubleSlash (c :: l) = false) : hasDoubleSlash l = false := by
  cases l with
  | nil => rfl
  | cons d t =>
    unfold hasDoubleSlash at h
    exact (Bool.or_eq_false_iff.mp h).2

theorem dropWhile_head_cases (p : Char → Bool) (l : List Char) :
    l.dropWhile p = [] ∨ ∃ c r2, l.dropWhile p = c :: r2 ∧ p c = false := by
  cases h : l.dropWhile p with
  | nil => exact Or.inl rfl
  | cons c r2 =>
    refine Or.inr ⟨c, r2, rfl, ?_⟩
    exact head_dropWhile_false l c (by rw [h]; rfl)

theorem takeWhile_append_all {p : Char → Bool} : ∀ {B : List Char} (x : List Char),
    (∀ c ∈ B, p c = true) → (B ++ x).takeWhile p = B ++ x.takeWhile p := by
  intro B
  induction B with
  | nil => intro x _; rfl
  | cons c B ih =>
    intro x h
    have hc : p c = true := h c (List.mem_cons_self c B)
    rw [List.cons_append, List.takeWhile_cons_of_pos hc, ih x (fun d hd => h d (List.mem_cons_of_mem c hd))]
    rfl

theorem dropWhile_append_all {p : Char → Bool} : ∀ {B : List Char} (x : List Char),
    (∀ c ∈ B, p c = true) → (B ++ x).dropWhile p = x.dropWhile p := by
  intro B
  induction B with
  | nil => intro x _; rfl
  | cons c B ih =>
    intro x h
    have hc : p c = true := h c (List.mem_cons_self c B)
    rw [List.cons_append, List.dropWhile_cons_of_pos hc, ih x (fun d hd => h d (List.mem_cons_of_mem c hd))]

theorem tryTok_quote_recon (q : Char) {cs a b : List Char}
    (hsp : splitAtLast q (cs.takeWhile (· ≠ '\n')) = some (a, b)) :
    (q :: a ++ [q]) ++ (b ++ cs.dropWhile (· ≠ '\n')) = q :: cs := by
  obtain ⟨h1, _⟩ := splitAtLast_some hsp
  have h2 : cs = (a ++ q :: b) ++ cs.dropWhile (· ≠ '\n') := by
    conv_lhs => rw [← List.takeWhile_append_dropWhile (p := (· ≠ '\n')) (l := cs), h1]
  conv_rhs => rw [h2]
  simp

theorem tryTok_recon {stop : Char → Bool} : ∀ {s t r : List Char},
    tryTok stop s = some (t, r) → t ++ r = s ∧ t ≠ [] := by
  intro s t r h
  match s with
  | [] => cases h
  | c :: cs =>
    simp only [tryTok] at h
    by_cases h1 : c = dq
    · rw [if_pos h1] at h
      cases hsp : splitAtLast dq (cs.takeWhile (· ≠ '\n')) with
      | none => rw [hsp] at h; cases h
      | some ab =>
        obtain ⟨a, b⟩ := ab
        rw [hsp] at h
        simp at h
        obtain ⟨ht, hr⟩ := h
        subst ht hr
        subst h1
        exact ⟨by simpa using tryTok_quote_recon dq hsp, by simp⟩
    · rw [if_neg h1] at h
      by_cases h2 : c = sq
      · rw [if_pos h2] at h
        cases hsp : splitAtLast sq (cs.takeWhile (· ≠ '\n')) with
        | none => rw [hsp] at h; cases h
        | some ab =>
          obtain ⟨a, b⟩ := ab
          rw [hsp] at h
          simp at h
          obtain ⟨ht, hr⟩ := h
          subst ht hr
          subst h2
          exact ⟨by simpa using tryTok_quote_recon sq hsp, by simp⟩
      · rw [if_neg h2] at h
        by_cases h3 : c = '#'
        · rw [if_pos h3] at h
          simp at h
          obtain ⟨ht, hr⟩ := h
          subst ht hr
          subst h3
          refine ⟨?_, by simp⟩
          rw [List.cons_append, List.takeWhile_append_dropWhile]
        · rw [if_neg h3] at h
          match cs, h with
          | d :: t2, h =>
            replace h : (if c = '/' ∧ d = '/' then
                some ('/' :: '/' :: t2.takeWhile (fun x => !stop x),
                  t2.dropWhile (fun x => !stop x)) else none) = some (t, r) := h
            by_cases h4 : c = '/' ∧ d = '/'
            · rw [if_pos h4] at h
              simp at h
              obtain ⟨ht, hr⟩ := h
              subst ht hr
              obtain ⟨hc, hd⟩ := h4
              subst hc hd
              refine ⟨?_, by simp⟩
              rw [List.cons_append, List.cons_append, List.takeWhile_append_dropWhile]
            · rw [if_neg h4] at h
              cases h

theorem tryTok_shape {stop : Char → Bool} : ∀ {s t r : List Char},
    tryTok stop s = some (t, r) →
    (∃ a, t = dq :: a ++ [dq]) ∨ (∃ a, t = sq :: a ++ [sq]) ∨
    (∃ a, t = '#' :: a) ∨ (∃ a, t = '/' :: '/' :: a) := by
  intro s t r h
  match s with
  | [] => cases h
  | c :: cs =>
    simp only [tryTok] at h
    by_cases h1 : c = dq
    · rw [if_pos h1] at h
      cases hsp : splitAtLast dq (cs.takeWhile (· ≠ '\n')) with
      | none => rw [hsp] at h; cases h
      | some ab =>
        obtain ⟨a, b⟩ := ab
        rw [hsp] at h
        simp at h
        exact Or.inl ⟨a, h.1.symm⟩
    · rw [if_neg h1] at h
      by_cases h2 : c = sq
      · rw [if_pos h2] at h
        cases hsp : splitAtLast sq (cs.takeWhile (· ≠ '\n')) with
        | none => rw [hsp] at h; cases h
        | some ab =>
          obtain ⟨a, b⟩ := ab
          rw [hsp] at h
          simp at h
          exact Or.inr (Or.inl ⟨a, h.1.symm⟩)
      · rw [if_neg h2] at h
        by_cases h3 : c = '#'
        · rw [if_pos h3] at h
          simp at h
          exact Or.inr (Or.inr (Or.inl ⟨_, h.1.symm⟩))
        · rw [if_neg h3] at h
          match cs, h with
          | d :: t2, h =>
            replace h : (if c = '/' ∧ d = '/' then
                some ('/' :: '/' :: t2.takeWhile (fun x => !stop x),
                  t2.dropWhile (fun x => !stop x)) else none) = some (t, r) := h
            by_cases h4 : c = '/' ∧ d = '/'
            · rw [if_pos h4] at h
              simp at h
              exact Or.inr (Or.inr (Or.inr ⟨_, h.1.symm⟩))
            · rw [if_neg h4] at h
              cases h

theorem tryTok_comment_rest {stop : Char → Bool} : ∀ {s t r : List Char},
    tryTok stop s = some (t, r) →
    (t.head? = some '#' ∨ t.head? = some '/') →
    r = [] ∨ ∃ c r2, r = c :: r2 ∧ stop c = true := by
  intro s t r h hm
  match s with
  | [] => cases h
  | c :: cs =>
    simp only [tryTok] at h
    by_cases h1 : c = dq
    · rw [if_pos h1] at h
      cases hsp : splitAtLast dq (cs.takeWhile (· ≠ '\n')) with
      | none => rw [hsp] at h; cases h
      | some ab =>
        obtain ⟨a, b⟩ := ab
        rw [hsp] at h
        simp at h
        rw [← h.1] at hm
        simp [dq] at hm
    · rw [if_neg h1] at h
      by_cases h2 : c = sq
      · rw [if_pos h2] at h
        cases hsp : splitAtLast sq (cs.takeWhile (· ≠ '\n')) with
        | none => rw [hsp] at h; cases h
        | some ab =>
          obtain ⟨a, b⟩ := ab
          rw [hsp] at h
          simp at h
          rw [← h.1] at hm
          simp [sq] at hm
      · rw [if_neg h2] at h
        by_cases h3 : c = '#'
        · rw [if_pos h3] at h
          simp at h
          rw [← h.2]
          rcases dropWhile_head_cases (fun x => !stop x) cs with hd | ⟨e, r2, hd, he⟩
          · exact Or.inl hd
          · refine Or.inr ⟨e, r2, hd, ?_⟩
            simpa using he
        · rw [if_neg h3] at h
          match cs, h with
          | d :: t2, h =>
            replace h : (if c = '/' ∧ d = '/' then
                some ('/' :: '/' :: t2.takeWhile (fun x => !stop x),
                  t2.dropWhile (fun x => !stop x)) else none) = some (t, r) := h
            by_cases h4 : c = '/' ∧ d = '/'
            · rw [if_pos h4] at h
              simp at h
              rw [← h.2]
              rcases dropWhile_head_cases (fun x => !stop x) t2 with hd | ⟨e, r2, hd, he⟩
              · exact Or.inl hd
              · refine Or.inr ⟨e, r2, hd, ?_⟩
                simpa using he
            · rw [if_neg h4] at h
              cases h

theorem tryTok_none_intro {stop : Char → Bool} {c : Char} {cs : List Char}
    (h1 : c ≠ dq) (h2 : c ≠ sq) (h3 : c ≠ '#')
    (h4 : ∀ d t2, cs = d :: t2 → ¬(c = '/' ∧ d = '/')) :
    tryTok stop (c :: cs) = none := by
  simp only [tryTok]
  rw [if_neg h1, if_neg h2, if_neg h3]
  match cs with
  | [] => rfl
  | d :: t2 =>
    show (if c = '/' ∧ d = '/' then
        some ('/' :: '/' :: t2.takeWhile (fun x => !stop x),
          t2.dropWhile (fun x => !stop x)) else none) = none
    rw [if_neg (h4 d t2 rfl)]

theorem tryTok_none_elim {stop : Char → Bool} {c : Char} {cs : List Char}
    (h : tryTok stop (c :: cs) = none) :
    c ≠ '#' ∧ ∀ d t2, cs = d :: t2 → ¬(c = '/' ∧ d = '/') := by
  constructor
  · intro hc
    simp only [tryTok] at h
    by_cases h1 : c = dq
    · rw [h1] at hc; simp [dq] at hc
    · by_cases h2 : c = sq
      · rw [h2] at hc; simp [sq] at hc
      · rw [if_neg h1, if_neg h2, if_pos hc] at h
        cases h
  · intro d t2 hcs hcd
    obtain ⟨hc, hd⟩ := hcd
    subst hcs hc hd
    have hcomp : tryTok stop ('/' :: '/' :: t2) =
        some ('/' :: '/' :: t2.takeWhile (fun x => !stop x),
          t2.dropWhile (fun x => !stop x)) := rfl
    rw [hcomp] at h
    cases h

theorem findTok_shift (stop : Char → Bool) : ∀ (s pre : List Char),
    findTok stop pre s =
      (findTok stop [] s).map (fun x => (pre.reverse ++ x.1, x.2.1, x.2.2)) := by
  intro s
  induction s with
  | nil => intro pre; rfl
  | cons c cs ih =>
    intro pre
    cases ht : tryTok stop (c :: cs) with
    | some tr =>
      obtain ⟨t, r⟩ := tr
      simp [findTok, ht]
    | none =>
      simp only [findTok, ht]
      rw [ih (c :: pre), ih [c]]
      cases hf : findTok stop [] cs with
      | none => rfl
      | some x => simp

theorem findTok_recon {stop : Char → Bool} : ∀ {s p t r : List Char},
    findTok stop [] s = some (p, t, r) →
    p ++ t ++ r = s ∧ t ≠ [] ∧ tryTok stop (t ++ r) = some (t, r) := by
  intro s
  induction s with
  | nil => intro p t r h; cases h
  | cons c cs ih =>
    intro p t r h
    cases ht : tryTok stop (c :: cs) with
    | some tr =>
      obtain ⟨t0, r0⟩ := tr
      simp [findTok, ht] at h
      obtain ⟨hp, ht0, hr0⟩ := h
      subst hp ht0 hr0
      obtain ⟨hrec, hne⟩ := tryTok_recon ht
      refine ⟨by simpa using hrec, hne, ?_⟩
      rw [hrec]
      exact ht
    | none =>
      simp only [findTok, ht] at h
      rw [findTok_shift] at h
      cases hf : findTok stop [] cs with
      | none => rw [hf] at h; cases h
      | some x =>
        obtain ⟨p0, t0, r0⟩ := x
        rw [hf] at h
        simp at h
        obtain ⟨hp, ht0, hr0⟩ := h
        subst hp ht0 hr0
        obtain ⟨hrec, hne, htk⟩ := ih hf
        exact ⟨by rw [← hrec]; simp, hne, htk⟩

theorem findTok_rest_length {stop : Char → Bool} {pre s p t r : List Char}
    (h : findTok stop pre s = some (p, t, r)) : r.length < s.length := by
  rw [findTok_shift] at h
  cases hf : findTok stop [] s with
  | none => rw [hf] at h; cases h
  | some x =>
    obtain ⟨p0, t0, r0⟩ := x
    rw [hf] at h
    simp at h
    obtain ⟨_, _, hr⟩ := h
    subst hr
    obtain ⟨hrec, hne, _⟩ := findTok_recon hf
    have hlen := congrArg List.length hrec
    simp at hlen
    have ht0 : 0 < t0.length := List.length_pos.mpr hne
    omega

theorem findTok_none_shift {stop : Char → Bool} {pre s : List Char}
    (h : findTok stop pre s = none) : findTok stop [] s = none := by
  rw [findTok_shift] at h
  cases hf : findTok stop [] s with
  | none => rfl
  | some x => rw [hf] at h; cases h

theorem findTok_plain {stop : Char → Bool} : ∀ {s p t r : List Char},
    findTok stop [] s = some (p, t, r) →
    p.contains '#' = false ∧ hasDoubleSlash (p ++ t.take 1) = false := by
  intro s
  induction s with
  | nil => intro p t r h; cases h
  | cons c cs ih =>
    intro p t r h
    cases ht : tryTok stop (c :: cs) with
    | some tr =>
      obtain ⟨t0, r0⟩ := tr
      simp [findTok, ht] at h
      obtain ⟨hp, ht0, hr0⟩ := h
      subst hp ht0 hr0
      refine ⟨rfl, ?_⟩
      refine hasDoubleSlash_short _ ?_
      simp
    | none =>
      simp only [findTok, ht] at h
      rw [findTok_shift] at h
      cases hf : findTok stop [] cs with
      | none => rw [hf] at h; cases h
      | some x =>
        obtain ⟨p0, t0, r0⟩ := x
        rw [hf] at h
        simp at h
        obtain ⟨hp, ht0, hr0⟩ := h
        subst hp ht0 hr0
        obtain ⟨ihc, ihd⟩ := ih hf
        obtain ⟨hcne, hslash⟩ := tryTok_none_elim ht
        obtain ⟨hrec, htne, _⟩ := findTok_recon hf
        constructor
        · have hm : '#' ∉ p0 := by simpa using ihc
          simp [List.contains_cons]
          exact ⟨fun he => hcne he.symm, hm⟩
        · cases hp0 : p0 with
          | nil =>
            subst hp0
            cases htk : t0 with
            | nil => exact absurd htk htne
            | cons e t1 =>
              have hcs : cs = e :: (t1 ++ r0) := by
                rw [← hrec, htk]
                simp
              have hne2 : ¬(c = '/' ∧ e = '/') := hslash e (t1 ++ r0) hcs
              show hasDoubleSlash (c :: ([] ++ (e :: t1).take 1)) = false
              simp only [List.nil_append, List.take_succ_cons, List.take_zero]
              unfold hasDoubleSlash
              have h1 : (c = '/' && e = '/') = false := by
                cases hc1 : decide (c = '/') <;> cases hc2 : decide (e = '/') <;> simp_all
              rw [h1]
              simp [hasDoubleSlash]
          | cons d p1 =>
            subst hp0
            have hcs : cs = d :: (p1 ++ t0 ++ r0) := by
              rw [← hrec]
              simp
            have hne2 : ¬(c = '/' ∧ d = '/') := hslash d (p1 ++ t0 ++ r0) hcs
            show hasDoubleSlash (c :: d :: (p1 ++ t0.take 1)) = false
            unfold hasDoubleSlash
            have h1 : (c = '/' && d = '/') = false := by
              cases hc1 : decide (c = '/') <;> cases hc2 : decide (d = '/') <;> simp_all
            rw [h1]
            simpa using ihd

theorem findTok_none_elim2 {stop : Char → Bool} : ∀ {s : List Char},
    findTok stop [] s = none →
    s.contains '#' = false ∧ hasDoubleSlash s = false := by
  intro s
  induction s with
  | nil => intro _; exact ⟨rfl, rfl⟩
  | cons c cs ih =>
    intro h
    cases ht : tryTok stop (c :: cs) with
    | some tr => simp [findTok, ht] at h
    | none =>
      simp only [findTok, ht] at h
      obtain ⟨ihc, ihd⟩ := ih (findTok_none_shift h)
      obtain ⟨hcne, hslash⟩ := tryTok_none_elim ht
      constructor
      · have hm : '#' ∉ cs := by simpa using ihc
        simp [List.contains_cons]
        exact ⟨fun he => hcne he.symm, hm⟩
      · cases hcs : cs with
        | nil => rfl
        | cons d t2 =>
          have hne2 : ¬(c = '/' ∧ d = '/') := hslash d t2 hcs
          unfold hasDoubleSlash
          have h1 : (c = '/' && d = '/') = false := by
            cases hc1 : decide (c = '/') <;> cases hc2 : decide (d = '/') <;> simp_all
          rw [h1]
          rw [← hcs]
          simpa using ihd

theorem findTok_none_intro {stop : Char → Bool} : ∀ {s : List Char},
    (∀ c ∈ s, c ≠ dq ∧ c ≠ sq ∧ c ≠ '#') → hasDoubleSlash s = false →
    findTok stop [] s = none := by
  intro s
  induction s with
  | nil => intro _ _; rfl
  | cons c cs ih =>
    intro hc hds
    obtain ⟨h1, h2, h3⟩ := hc c (List.mem_cons_self c cs)
    have ht : tryTok stop (c :: cs) = none := by
      refine tryTok_none_intro h1 h2 h3 ?_
      intro d t2 hcs hcd
      obtain ⟨rfl, rfl⟩ := hcd
      rw [hcs] at hds
      unfold hasDoubleSlash at hds
      simp at hds
    simp only [findTok, ht]
    rw [findTok_shift]
    rw [ih (fun d hd => hc d (List.mem_cons_of_mem c hd)) (hasDoubleSlash_cons_elim hds)]
    rfl

theorem findTok_nil (stop : Char → Bool) : findTok stop [] ([] : List Char) = none := rfl

theorem reSplitF_fuel (stop : Char → Bool) : ∀ (f1 : Nat) {s : List Char} (f2 ms : Nat),
    s.length < f1 → s.length < f2 → reSplitF stop f1 ms s = reSplitF stop f2 ms s := by
  intro f1
  induction f1 with
  | zero => intro s f2 ms h1 _; omega
  | succ f ih =>
    intro s f2 ms h1 h2
    match f2, h2 with
    | f2 + 1, h2 =>
      simp only [reSplitF]
      cases hf : findTok stop [] s with
      | none => rfl
      | some x =>
        obtain ⟨p, t, r⟩ := x
        have hlt := findTok_rest_length hf
        by_cases hm : ms = 1
        · simp [hm]
        · simp only [if_neg hm]
          rw [ih f2 (ms - 1) (by omega) (by omega)]

theorem reSplit_none {stop : Char → Bool} {s : List Char} (ms : Nat)
    (h : findTok stop [] s = none) : reSplit stop ms s = [(false, s)] := by
  unfold reSplit
  simp only [reSplitF, h]

theorem reSplit_some {stop : Char → Bool} {s p t r : List Char} (ms : Nat)
    (h : findTok stop [] s = some (p, t, r)) :
    reSplit stop ms s =
      if ms = 1 then [(false, p), (true, t), (false, r)]
      else (false, p) :: (true, t) :: reSplit stop (ms - 1) r := by
  have hstep : reSplitF stop (s.length + 1) ms s =
      (match findTok stop [] s with
        | none => [(false, s)]
        | some (p, t, r) =>
          if ms = 1 then [(false, p), (true, t), (false, r)]
          else (false, p) :: (true, t) :: reSplitF stop s.length (ms - 1) r) := rfl
  show reSplitF stop (s.length + 1) ms s = _
  rw [hstep]
  simp only [h]
  by_cases hm : ms = 1
  · simp [hm]
  · rw [if_neg hm, if_neg hm]
    unfold reSplit
    rw [reSplitF_fuel stop s.length (r.length + 1) (ms - 1) (findTok_rest_length h)
      (Nat.lt_succ_self _)]

theorem reSplit_flatten_bd (stop : Char → Bool) : ∀ (n : Nat) (s : List Char),
    s.length ≤ n → ∀ ms, ((reSplit stop ms s).map Prod.snd).flatten = s := by
  intro n
  induction n with
  | zero =>
    intro s hs ms
    have hnil : s = [] := List.eq_nil_of_length_eq_zero (Nat.le_zero.mp hs)
    subst hnil
    rw [reSplit_none ms (findTok_nil stop)]
    rfl
  | succ n ih =>
    intro s hs ms
    cases hf : findTok stop [] s with
    | none => rw [reSplit_none ms hf]; simp
    | some x =>
      obtain ⟨p, t, r⟩ := x
      rw [reSplit_some ms hf]
      obtain ⟨hrec, hne, _⟩ := findTok_recon hf
      have hlt : r.length < s.length := findTok_rest_length hf
      by_cases hm : ms = 1
      · rw [if_pos hm]
        simpa using hrec
      · rw [if_neg hm]
        simp only [List.map_cons, List.flatten_cons]
        rw [ih r (by omega) (ms - 1)]
        rw [← List.append_assoc]
        exact hrec

theorem reSplit_flatten (stop : Char → Bool) (ms : Nat) (s : List Char) :
    ((reSplit stop ms s).map Prod.snd).flatten = s :=
  reSplit_flatten_bd stop s.length s le_rfl ms

/-- Structural classification of the parts produced by an unlimited split:
token parts have one of the four token shapes; text parts contain no
comment marker. -/
def partOK (pr : Bool × List Char) : Prop :=
  (pr.1 = true →
    (∃ a, pr.2 = dq :: a ++ [dq]) ∨ (∃ a, pr.2 = sq :: a ++ [sq]) ∨
    (∃ a, pr.2 = '#' :: a) ∨ (∃ a, pr.2 = '/' :: '/' :: a)) ∧
  (pr.1 = false → pr.2.contains '#' = false ∧ hasDoubleSlash pr.2 = false)

theorem reSplit_parts_bd (stop : Char → Bool) : ∀ (n : Nat) (s : List Char),
    s.length ≤ n → ∀ pr ∈ reSplit stop 0 s, partOK pr := by
  intro n
  induction n with
  | zero =>
    intro s hs pr hpr
    have hnil : s = [] := List.eq_nil_of_length_eq_zero (Nat.le_zero.mp hs)
    subst hnil
    rw [reSplit_none 0 (findTok_nil stop)] at hpr
    simp at hpr
    subst hpr
    exact ⟨fun h => (Bool.false_ne_true h).elim, fun _ => ⟨rfl, rfl⟩⟩
  | succ n ih =>
    intro s hs pr hpr
    cases hf : findTok stop [] s with
    | none =>
      rw [reSplit_none 0 hf] at hpr
      simp at hpr
      subst hpr
      exact ⟨fun h => (Bool.false_ne_true h).elim, fun _ => findTok_none_elim2 hf⟩
    | some x =>
      obtain ⟨p, t, r⟩ := x
      rw [reSplit_some 0 hf] at hpr
      rw [if_neg (by omega)] at hpr
      have hlt : r.length < s.length := findTok_rest_length hf
      rcases List.mem_cons.mp hpr with hp1 | hpr2
      · subst hp1
        refine ⟨fun h => (Bool.false_ne_true h).elim, fun _ => ?_⟩
        obtain ⟨hc, hds⟩ := findTok_plain hf
        refine ⟨hc, ?_⟩
        cases hds2 : hasDoubleSlash p with
        | false => rfl
        | true => rw [hasDoubleSlash_append_left (t.take 1) hds2] at hds; cases hds
      · rcases List.mem_cons.mp hpr2 with hp2 | hpr3
        · subst hp2
          refine ⟨fun _ => ?_, fun h => absurd h (by simp)⟩
          obtain ⟨_, _, htk⟩ := findTok_recon hf
          exact tryTok_shape htk
        · exact ih r (by omega) pr hpr3

theorem reSplit_parts (stop : Char → Bool) (s : List Char) :
    ∀ pr ∈ reSplit stop 0 s, partOK pr :=
  reSplit_parts_bd stop s.length s le_rfl

/-- Number of tokens the scanner finds in `s` (unlimited split). -/
def tokCount (stop : Char → Bool) (s : List Char) : Nat :=
  ((reSplit stop 0 s).filter (fun pr => pr.1)).length

theorem tokCount_none {stop : Char → Bool} {s : List Char}
    (h : findTok stop [] s = none) : tokCount stop s = 0 := by
  unfold tokCount
  rw [reSplit_none 0 h]
  rfl

theorem tokCount_some {stop : Char → Bool} {s p t r : List Char}
    (h : findTok stop [] s = some (p, t, r)) :
    tokCount stop s = tokCount stop r + 1 := by
  unfold tokCount
  rw [reSplit_some 0 h, if_neg (by omega)]
  simp [List.filter_cons]

/-- When the scanner finds at most `ms` tokens, the `maxsplit` cap is
never reached and the capped split agrees with the unlimited one. -/
theorem reSplit_ms_eq_bd (stop : Char → Bool) : ∀ (n : Nat) (s : List Char),
    s.length ≤ n → ∀ ms : Nat, tokCount stop s ≤ ms →
    reSplit stop ms s = reSplit stop 0 s := by
  intro n
  induction n with
  | zero =>
    intro s hs ms _
    have hnil : s = [] := List.eq_nil_of_length_eq_zero (Nat.le_zero.mp hs)
    subst hnil
    rw [reSplit_none ms (findTok_nil stop), reSplit_none 0 (findTok_nil stop)]
  | succ n ih =>
    intro s hs ms hms
    cases hf : findTok stop [] s with
    | none => rw [reSplit_none ms hf, reSplit_none 0 hf]
    | some x =>
      obtain ⟨p, t, r⟩ := x
      have hlt : r.length < s.length := findTok_rest_length hf
      have hcnt := tokCount_some hf
      rw [reSplit_some ms hf, reSplit_some 0 hf,
        if_neg (by decide : ¬((0 : Nat) = 1))]
      have h01 : (0 : Nat) - 1 = 0 := rfl
      rw [h01]
      by_cases hm : ms = 1
      · rw [if_pos hm]
        have hr0 : tokCount stop r = 0 := by omega
        have hfr : findTok stop [] r = none := by
          cases hfr : findTok stop [] r with
          | none => rfl
          | some y =>
            obtain ⟨p2, t2, r2⟩ := y
            rw [tokCount_some hfr] at hr0
            omega
        rw [reSplit_none 0 hfr]
      · rw [if_neg hm]
        rw [ih r (by omega) (ms - 1) (by omega)]

theorem reSplit_ms_eq {stop : Char → Bool} {s : List Char} {ms : Nat}
    (h : tokCount stop s ≤ ms) : reSplit stop ms s = reSplit stop 0 s :=
  reSplit_ms_eq_bd stop s.length s le_rfl ms h

theorem hasDoubleSlash_append_single {A : List Char} {x : Char}
    (hA : hasDoubleSlash A = false) (hx : x ≠ '/') :
    hasDoubleSlash (A ++ [x]) = false := by
  induction A with
  | nil =>
    simp [hasDoubleSlash]
  | cons c A ih =>
    cases A with
    | nil =>
      unfold hasDoubleSlash
      have h1 : (c = '/' && x = '/') = false := by
        cases hc1 : decide (c = '/') <;> cases hc2 : decide (x = '/') <;> simp_all
      simp [h1, hasDoubleSlash]
    | cons d A2 =>
      unfold hasDoubleSlash at hA
      obtain ⟨ha1, ha2⟩ := Bool.or_eq_false_iff.mp hA
      show hasDoubleSlash (c :: d :: (A2 ++ [x])) = false
      unfold hasDoubleSlash
      rw [ha1]
      simpa using ih ha2

theorem stripBy_dropWhile_split (p : Char → Bool) (l : List Char) :
    ∃ b, l.dropWhile p = stripBy p l ++ b ∧ ∀ c ∈ b, p c = true := by
  refine ⟨((l.dropWhile p).reverse.takeWhile p).reverse, ?_, ?_⟩
  · have hrev : (l.dropWhile p).reverse =
        (l.dropWhile p).reverse.takeWhile p ++ (l.dropWhile p).reverse.dropWhile p := by
      rw [List.takeWhile_append_dropWhile]
    calc l.dropWhile p = (l.dropWhile p).reverse.reverse := by rw [List.reverse_reverse]
      _ = ((l.dropWhile p).reverse.takeWhile p ++ (l.dropWhile p).reverse.dropWhile p).reverse := by
          rw [← hrev]
      _ = stripBy p l ++ ((l.dropWhile p).reverse.takeWhile p).reverse := by
          rw [List.reverse_append]; rfl
  · intro c hc
    exact List.mem_takeWhile_imp (List.mem_reverse.mp hc)

theorem stripBy_head_of_drop {p : Char → Bool} {l : List Char} {c : Char} {u : List Char}
    (h : l.dropWhile p = c :: u) :
    ∃ ys, stripBy p l = c :: ys ∧ ys <+: u := by
  have hc : p c = false := head_dropWhile_false l c (by rw [h]; rfl)
  obtain ⟨b, hb, hball⟩ := stripBy_dropWhile_split p l
  cases hst : stripBy p l with
  | nil =>
    rw [hst] at hb
    simp at hb
    rw [h] at hb
    have : p c = true := hball c (by rw [← hb]; exact List.mem_cons_self c u)
    rw [this] at hc
    cases hc
  | cons e ys =>
    rw [hst, h] at hb
    simp at hb
    obtain ⟨hec, hys⟩ := hb
    subst hec
    exact ⟨ys, rfl, ⟨b, hys.symm⟩⟩

theorem joinKept_cons (keep : List Char → Bool) (b : Bool) (x : List Char)
    (parts : List (Bool × List Char)) :
    joinKept keep ((b, x) :: parts) =
      (if keep x then stripSpaces x else []) ++ joinKept keep parts := by
  unfold joinKept
  simp only [List.map_cons, List.filter_cons]
  by_cases h : keep x <;> simp [h]

theorem tryTok_quote (stop : Char → Bool) (q : Char) (hq : q = dq ∨ q = sq)
    (B C : List Char) (hnlB : '\n' ∉ B) (hqB : q ∉ B) (hqC : q ∉ C) :
    tryTok stop (q :: (B ++ q :: C)) = some (q :: B ++ [q], C) := by
  have hqnl : q ≠ '\n' := by rcases hq with rfl | rfl <;> decide
  have hBp : ∀ c ∈ B, (decide (c ≠ '\n')) = true := by
    intro c hc
    simp only [decide_eq_true_iff]
    intro he
    exact hnlB (he ▸ hc)
  have htw : (B ++ q :: C).takeWhile (· ≠ '\n') =
      B ++ q :: C.takeWhile (· ≠ '\n') := by
    rw [takeWhile_append_all (q :: C) hBp]
    congr 1
    rw [List.takeWhile_cons_of_pos (by simpa using hqnl)]
  have hdw : (B ++ q :: C).dropWhile (· ≠ '\n') = C.dropWhile (· ≠ '\n') := by
    rw [dropWhile_append_all (q :: C) hBp]
    rw [List.dropWhile_cons_of_pos (by simpa using hqnl)]
  have hqtc : q ∉ C.takeWhile (· ≠ '\n') := by
    intro hm
    exact hqC ((List.takeWhile_sublist _).subset hm)
  have hsp : splitAtLast q (B ++ q :: C.takeWhile (· ≠ '\n')) =
      some (B, C.takeWhile (· ≠ '\n')) := splitAtLast_last B _ hqtc
  rcases hq with rfl | rfl
  · have hstep : tryTok stop (dq :: (B ++ dq :: C)) =
        (match splitAtLast dq ((B ++ dq :: C).takeWhile (· ≠ '\n')) with
          | some (a, b) =>
            some (dq :: a ++ [dq], b ++ (B ++ dq :: C).dropWhile (· ≠ '\n'))
          | none => none) := rfl
    rw [hstep, htw, hsp]
    show some (dq :: B ++ [dq],
        C.takeWhile (· ≠ '\n') ++ (B ++ dq :: C).dropWhile (· ≠ '\n')) = _
    rw [hdw, List.takeWhile_append_dropWhile]
  · have hstep : tryTok stop (sq :: (B ++ sq :: C)) =
        (match splitAtLast sq ((B ++ sq :: C).takeWhile (· ≠ '\n')) with
          | some (a, b) =>
            some (sq :: a ++ [sq], b ++ (B ++ sq :: C).dropWhile (· ≠ '\n'))
          | none => none) := rfl
    rw [hstep, htw, hsp]
    show some (sq :: B ++ [sq],
        C.takeWhile (· ≠ '\n') ++ (B ++ sq :: C).dropWhile (· ≠ '\n')) = _
    rw [hdw, List.takeWhile_append_dropWhile]

theorem findTok_skip (stop : Char → Bool) : ∀ (A s' pre : List Char),
    (∀ c ∈ A, c ≠ dq ∧ c ≠ sq ∧ c ≠ '#') →
    hasDoubleSlash (A ++ s'.take 1) = false →
    findTok stop pre (A ++ s') = findTok stop (A.reverse ++ pre) s' := by
  intro A
  induction A with
  | nil => intro s' pre _ _; simp
  | cons c A ih =>
    intro s' pre hA hds
    obtain ⟨h1, h2, h3⟩ := hA c (List.mem_cons_self c A)
    have hslash : ∀ d t2, A ++ s' = d :: t2 → ¬(c = '/' ∧ d = '/') := by
      intro d t2 heq hcd
      obtain ⟨rfl, rfl⟩ := hcd
      cases A with
      | nil =>
        simp at heq
        rw [heq] at hds
        simp [hasDoubleSlash] at hds
      | cons e A2 =>
        rw [List.cons_append] at heq
        have he : e = '/' := (List.cons_eq_cons.mp heq).1
        rw [List.cons_append] at hds
        rw [he] at hds
        simp [hasDoubleSlash] at hds
    have ht : tryTok stop (c :: (A ++ s')) = none :=
      tryTok_none_intro h1 h2 h3 hslash
    rw [List.cons_append]
    simp only [findTok, ht]
    rw [ih s' (c :: pre) (fun d hd => hA d (List.mem_cons_of_mem c hd))
      (hasDoubleSlash_cons_elim (by simpa using hds))]
    congr 1
    simp

theorem findTok_span (stop : Char → Bool) (q : Char) (hq : q = dq ∨ q = sq)
    (A B C : List Char)
    (hA : ∀ c ∈ A, c ≠ dq ∧ c ≠ sq ∧ c ≠ '#')
    (hdsA : hasDoubleSlash A = false)
    (hnlB : '\n' ∉ B) (hqB : q ∉ B) (hqC : q ∉ C) :
    findTok stop [] (A ++ (q :: (B ++ q :: C))) = some (A, q :: B ++ [q], C) := by
  have hq2 : q ≠ '/' := by rcases hq with rfl | rfl <;> decide
  have hds1 : hasDoubleSlash (A ++ (q :: (B ++ q :: C)).take 1) = false := by
    have htake : (q :: (B ++ q :: C)).take 1 = [q] := by simp
    rw [htake]
    exact hasDoubleSlash_append_single hdsA hq2
  rw [findTok_skip stop A _ [] hA hds1]
  have ht := tryTok_quote stop q hq B C hnlB hqB hqC
  simp only [findTok, ht]
  simp

theorem keepB_span (q : Char) (hq : q = dq ∨ q = sq) (B : List Char) :
    keepB (q :: B ++ [q]) = true := by
  have hq2 : q ≠ '/' := by rcases hq with rfl | rfl <;> decide
  have hq3 : q ≠ '#' := by rcases hq with rfl | rfl <;> decide
  unfold keepB
  simp only [Bool.not_eq_true', Bool.or_eq_false_iff]
  constructor
  · cases hp : ['/', '/'].isPrefixOf (q :: B ++ [q]) with
    | false => rfl
    | true =>
      obtain ⟨rest, hr⟩ := isPrefixOf_two.mp hp
      exact absurd (List.cons_eq_cons.mp hr).1 hq2
  · cases hp : ['#'].isPrefixOf (q :: B ++ [q]) with
    | false => rfl
    | true =>
      obtain ⟨rest, hr⟩ := isPrefixOf_one.mp hp
      exact absurd (List.cons_eq_cons.mp hr).1 hq3

theorem isCommentL_span (q : Char) (hq : q = dq ∨ q = sq) (B : List Char) :
    isCommentL (q :: B ++ [q]) = false := by
  have hq2 : q ≠ '/' := by rcases hq with rfl | rfl <;> decide
  have hq3 : q ≠ '#' := by rcases hq with rfl | rfl <;> decide
  have hqws : pyWs q = false := by rcases hq with rfl | rfl <;> decide
  obtain ⟨ys, hys⟩ := stripBy_cons_head (B ++ [q]) hqws
  unfold isCommentL stripWs
  rw [List.cons_append, hys]
  simp only [Bool.or_eq_false_iff]
  constructor
  · cases hp : ['/', '/'].isPrefixOf (q :: ys) with
    | false => rfl
    | true =>
      obtain ⟨rest, hr⟩ := isPrefixOf_two.mp hp
      exact absurd (List.cons_eq_cons.mp hr).1 hq2
  · cases hp : ['#'].isPrefixOf (q :: ys) with
    | false => rfl
    | true =>
      obtain ⟨rest, hr⟩ := isPrefixOf_one.mp hp
      exact absurd (List.cons_eq_cons.mp hr).1 hq3

theorem stripSpaces_span (q : Char) (hq : q = dq ∨ q = sq) (B : List Char) :
    stripSpaces (q :: B ++ [q]) = q :: B ++ [q] := by
  have hqsp : isSp q = false := by rcases hq with rfl | rfl <;> decide
  refine stripBy_eq_self ?_ ?_
  · intro c hc
    rw [List.cons_append, List.head?_cons] at hc
    cases hc
    exact hqsp
  · intro c hc
    rw [List.getLast?_concat] at hc
    cases hc
    exact hqsp

/-- The structural hypotheses of the amended claim C3: `q` is a quote
character, the span delimiters are the only quotes on the line, the span
body fits on one line and holds a comment marker, and no comment marker
occurs before the opening quote. -/
def spanLineOK (q : Char) (A B C : List Char) : Bool :=
  (q = dq || q = sq) &&
  !A.contains dq && !A.contains sq && !A.contains '#' && !hasDoubleSlash A &&
  !B.contains dq && !B.contains sq && !B.contains '\n' &&
  !C.contains dq && !C.contains sq &&
  (B.contains '#' || hasDoubleSlash B)

theorem not_mem_of_contains_false {c : Char} {s : List Char}
    (h : s.contains c = false) : c ∉ s := by
  simpa using h

theorem spanLineOK_elim {q : Char} {A B C : List Char}
    (h : spanLineOK q A B C = true) :
    (q = dq ∨ q = sq) ∧ (∀ c ∈ A, c ≠ dq ∧ c ≠ sq ∧ c ≠ '#') ∧
    hasDoubleSlash A = false ∧ '\n' ∉ B ∧ q ∉ B ∧ q ∉ C ∧ '#' ∉ A ∧
    ('#' ∈ B ∨ hasDoubleSlash B = true) := by
  unfold spanLineOK at h
  simp only [Bool.and_eq_true, Bool.not_eq_true', Bool.or_eq_true,
    decide_eq_true_eq] at h
  obtain ⟨⟨⟨⟨⟨⟨⟨⟨⟨⟨hq, hA1⟩, hA2⟩, hA3⟩, hA4⟩, hB1⟩, hB2⟩, hB3⟩, hC1⟩, hC2⟩, hmk⟩ := h
  have hna : '#' ∉ A := not_mem_of_contains_false hA3
  refine ⟨hq, ?_, hA4, not_mem_of_contains_false hB3, ?_, ?_, hna, ?_⟩
  · intro c hc
    refine ⟨?_, ?_, ?_⟩
    · intro he; subst he; exact (not_mem_of_contains_false hA1) hc
    · intro he; subst he; exact (not_mem_of_contains_false hA2) hc
    · intro he; subst he; exact hna hc
  · rcases hq with rfl | rfl
    · exact not_mem_of_contains_false hB1
    · exact not_mem_of_contains_false hB2
  · rcases hq with rfl | rfl
    · exact not_mem_of_contains_false hC1
    · exact not_mem_of_contains_false hC2
  · rcases hmk with hm | hm
    · exact Or.inl (by simpa using hm)
    · exact Or.inr hm

/-- C3 (amended): for a line `A ++ q :: B ++ q :: C` whose only quote
characters are the two `q` delimiters, whose span body `B` stays on one
line and contains a `#` or `//` marker, and (the amendment) in which no
comment marker occurs before the opening quote, both cleaners preserve
the whole quoted span — marker included — verbatim: the buffer cleaner
keeps it as a literal token, and the streaming cleaner neither drops the
line as a whole-line comment nor strips the marker. -/
theorem marker_in_span_preserved (q : Char) (A B C : List Char)
    (h : spanLineOK q A B C = true) :
    (q :: B ++ [q]) <:+: (cJSONStr_clean ⟨A ++ q :: B ++ q :: C⟩).data ∧
    cJSONFile_is_comment ⟨A ++ q :: B ++ q :: C⟩ = false ∧
    (q :: B ++ [q]) <:+: (cJSONFile_clean ⟨A ++ q :: B ++ q :: C⟩).data := by
  obtain ⟨hq, hA, hdsA, hnlB, hqB, hqC, hnaA, hmk⟩ := spanLineOK_elim h
  have hq2 : q ≠ '/' := by rcases hq with rfl | rfl <;> decide
  have hq3 : q ≠ '#' := by rcases hq with rfl | rfl <;> decide
  have hqws : pyWs q = false := by rcases hq with rfl | rfl <;> decide
  have hline : (A ++ q :: B ++ q :: C) = A ++ (q :: (B ++ q :: C)) := by simp
  have hfindB := findTok_span stopB q hq A B C hA hdsA hnlB hqB hqC
  have hfindL := findTok_span stopL q hq A B C hA hdsA hnlB hqB hqC
  refine ⟨?_, ?_, ?_⟩
  · show (q :: B ++ [q]) <:+:
      joinKept keepB (reSplit stopB 8 (A ++ q :: B ++ q :: C))
    rw [hline, reSplit_some 8 hfindB, if_neg (by decide : ¬(8 : Nat) = 1)]
    rw [joinKept_cons, joinKept_cons, if_pos (keepB_span q hq B),
      stripSpaces_span q hq B]
    refine ⟨if keepB A then stripSpaces A else [],
      joinKept keepB (reSplit stopB (8 - 1) C), ?_⟩
    rw [List.append_assoc]
  · show isCommentL (A ++ q :: B ++ q :: C) = false
    rw [hline]
    unfold isCommentL stripWs
    cases hA0 : List.dropWhile pyWs A with
    | nil =>
      have hdw : List.dropWhile pyWs (A ++ (q :: (B ++ q :: C))) =
          q :: (B ++ q :: C) := by
        rw [List.dropWhile_append, hA0]
        simp [List.dropWhile_cons_of_neg, hqws]
      obtain ⟨ys, hys, hpre⟩ := stripBy_head_of_drop hdw
      rw [hys]
      simp only [Bool.or_eq_false_iff]
      constructor
      · cases hp : ['/', '/'].isPrefixOf (q :: ys) with
        | false => rfl
        | true =>
          obtain ⟨rest, hr⟩ := isPrefixOf_two.mp hp
          exact absurd (List.cons_eq_cons.mp hr).1 hq2
      · cases hp : ['#'].isPrefixOf (q :: ys) with
        | false => rfl
        | true =>
          obtain ⟨rest, hr⟩ := isPrefixOf_one.mp hp
          exact absurd (List.cons_eq_cons.mp hr).1 hq3
    | cons c u0 =>
      have hdw : List.dropWhile pyWs (A ++ (q :: (B ++ q :: C))) =
          c :: (u0 ++ (q :: (B ++ q :: C))) := by
        rw [List.dropWhile_append, hA0]
        simp
      obtain ⟨ys, hys, hpre⟩ := stripBy_head_of_drop hdw
      rw [hys]
      have hcA : c ∈ A := (List.dropWhile_suffix pyWs).sublist.subset
        (by rw [hA0]; exact List.mem_cons_self c u0)
      simp only [Bool.or_eq_false_iff]
      constructor
      · cases hp : ['/', '/'].isPrefixOf (c :: ys) with
        | false => rfl
        | true =>
          obtain ⟨rest, hr⟩ := isPrefixOf_two.mp hp
          obtain ⟨hc1, hr2⟩ := List.cons_eq_cons.mp hr
          obtain ⟨t2, ht2⟩ := hpre
          rw [hr2] at ht2
          cases u0 with
          | nil =>
            rw [List.nil_append] at ht2
            have : ('/' : Char) = q := (List.cons_eq_cons.mp ht2).1
            exact absurd this.symm hq2
          | cons e u1 =>
            have he : ('/' : Char) = e := by
              have : ('/' :: (rest ++ t2) : List Char) =
                  e :: (u1 ++ (q :: (B ++ q :: C))) := by simpa using ht2
              exact (List.cons_eq_cons.mp this).1
            have hds2 : hasDoubleSlash (List.dropWhile pyWs A) = true := by
              rw [hA0, hc1, ← he]
              unfold hasDoubleSlash
              simp
            have hda : hasDoubleSlash A = true :=
              hasDoubleSlash_sub (List.dropWhile_suffix pyWs).isInfix hds2
            rw [hda] at hdsA
            cases hdsA
      · cases hp : ['#'].isPrefixOf (c :: ys) with
        | false => rfl
        | true =>
          obtain ⟨rest, hr⟩ := isPrefixOf_one.mp hp
          have : c = '#' := (List.cons_eq_cons.mp hr).1
          exact absurd (this ▸ hcA) hnaA
  · have hmark : containsMarker (A ++ q :: B ++ q :: C) = true := by
      unfold containsMarker
      rcases hmk with hm | hm
      · have hmem : '#' ∈ A ++ q :: B ++ q :: C := by
          rw [hline]
          refine List.mem_append_right A ?_
          exact List.mem_cons_of_mem q (List.mem_append_left _ hm)
        have : (A ++ q :: B ++ q :: C).contains '#' = true := by simpa using hmem
        rw [this]
        rfl
      · have hinf : B <:+: (A ++ q :: B ++ q :: C) :=
          ⟨A ++ [q], q :: C, by simp⟩
        rw [hasDoubleSlash_sub hinf hm]
        simp
    show (q :: B ++ [q]) <:+: (cJSONFile_clean ⟨A ++ q :: B ++ q :: C⟩).data
    unfold cJSONFile_clean
    rw [if_pos hmark]
    show (q :: B ++ [q]) <:+:
      joinKept (fun p => !isCommentL p) (reSplit stopL 0 (A ++ q :: B ++ q :: C))
    rw [hline, reSplit_some 0 hfindL, if_neg (by decide : ¬(0 : Nat) = 1)]
    rw [joinKept_cons, joinKept_cons,
      if_pos (show (!isCommentL (q :: B ++ [q])) = true by
        rw [isCommentL_span q hq B]; rfl),
      stripSpaces_span q hq B]
    refine ⟨if (!isCommentL A) = true then stripSpaces A else [],
      joinKept (fun p => !isCommentL p) (reSplit stopL (0 - 1) C), ?_⟩
    rw [List.append_assoc]

/-- C3 (witness): the amended span-preservation claim at the concrete
line `x: "a // b",` (so `A = "x: "`, `B = "a // b"`, `C = ","`). -/
theorem marker_in_span_preserved_w :
    (dq :: "a // b".data ++ [dq]) <:+:
      (cJSONStr_clean ⟨"x: ".data ++ dq :: "a // b".data ++ dq :: ",".data⟩).data ∧
    cJSONFile_is_comment ⟨"x: ".data ++ dq :: "a // b".data ++ dq :: ",".data⟩ = false ∧
    (dq :: "a // b".data ++ [dq]) <:+:
      (cJSONFile_clean ⟨"x: ".data ++ dq :: "a // b".data ++ dq :: ",".data⟩).data :=
  marker_in_span_preserved dq "x: ".data "a // b".data ",".data (by decide)

/-- The comment-stripping pass of `cJSONFile._clean` on the character
level (the branch taken when the line contains a marker). -/
def cleanPartsL (s : List Char) : List Char :=
  joinKept (fun p => !isCommentL p) (reSplit stopL 0 s)

theorem markerFree_of_sub {a b : List Char} (hab : a <:+: b)
    (h1 : b.contains '#' = false) (h2 : hasDoubleSlash b = false) :
    a.contains '#' = false ∧ hasDoubleSlash a = false := by
  constructor
  · cases hc : a.contains '#' with
    | false => rfl
    | true =>
      have : '#' ∈ a := by simpa using hc
      exact absurd (hab.mem this) (not_mem_of_contains_false h1)
  · cases hc : hasDoubleSlash a with
    | false => rfl
    | true => rw [hasDoubleSlash_sub hab hc] at h2; cases h2

theorem isCommentL_false_of_markerFree {x : List Char}
    (h1 : x.contains '#' = false) (h2 : hasDoubleSlash x = false) :
    isCommentL x = false := by
  unfold isCommentL
  simp only [Bool.or_eq_false_iff]
  constructor
  · cases hp : ['/', '/'].isPrefixOf (stripWs x) with
    | false => rfl
    | true =>
      obtain ⟨rest, hr⟩ := isPrefixOf_two.mp hp
      have hds : hasDoubleSlash (stripWs x) = true := by
        rw [hr]
        unfold hasDoubleSlash
        simp
      rw [hasDoubleSlash_sub (stripBy_sub pyWs x) hds] at h2
      cases h2
  · cases hp : ['#'].isPrefixOf (stripWs x) with
    | false => rfl
    | true =>
      obtain ⟨rest, hr⟩ := isPrefixOf_one.mp hp
      have : '#' ∈ stripWs x := by rw [hr]; exact List.mem_cons_self _ _
      exact absurd ((stripBy_sub pyWs x).mem this)
        (not_mem_of_contains_false h1)

theorem keepB_true_of_markerFree {x : List Char}
    (h1 : x.contains '#' = false) (h2 : hasDoubleSlash x = false) :
    keepB x = true := by
  unfold keepB
  simp only [Bool.not_eq_true', Bool.or_eq_false_iff]
  constructor
  · cases hp : ['/', '/'].isPrefixOf x with
    | false => rfl
    | true =>
      obtain ⟨rest, hr⟩ := isPrefixOf_two.mp hp
      rw [hr] at h2
      unfold hasDoubleSlash at h2
      simp at h2
  · cases hp : ['#'].isPrefixOf x with
    | false => rfl
    | true =>
      obtain ⟨rest, hr⟩ := isPrefixOf_one.mp hp
      rw [hr] at h1
      simp [List.contains_cons] at h1

theorem stripBy_all_append {p : Char → Bool} {P : List Char} (Y : List Char)
    (h : ∀ c ∈ P, p c = true) : stripBy p (P ++ Y) = stripBy p Y := by
  unfold stripBy
  rw [dropWhile_append_all Y h]

theorem stripBy_head2 {p : Char → Bool} {c1 c2 : Char} (xs : List Char)
    (h1 : p c1 = false) (h2 : p c2 = false) :
    ∃ ys, stripBy p (c1 :: c2 :: xs) = c1 :: c2 :: ys := by
  have hd : List.dropWhile p (c1 :: c2 :: xs) = c1 :: c2 :: xs := by
    refine dropWhile_eq_self_of_head ?_
    intro d hd2
    simp at hd2
    rw [← hd2]
    exact h1
  obtain ⟨b, hb, hball⟩ := stripBy_dropWhile_split p (c1 :: c2 :: xs)
  rw [hd] at hb
  cases hst : stripBy p (c1 :: c2 :: xs) with
  | nil =>
    rw [hst] at hb
    simp at hb
    have : p c1 = true := hball c1 (by rw [← hb]; exact List.mem_cons_self _ _)
    rw [this] at h1
    cases h1
  | cons e ys =>
    cases ys with
    | nil =>
      rw [hst] at hb
      simp at hb
      obtain ⟨he, hbb⟩ := hb
      have : p c2 = true := hball c2 (by rw [← hbb]; exact List.mem_cons_self _ _)
      rw [this] at h2
      cases h2
    | cons e2 ys2 =>
      rw [hst] at hb
      simp at hb
      obtain ⟨he, he2, _⟩ := hb
      subst he he2
      exact ⟨ys2, rfl⟩

theorem isCommentL_hash (a : List Char) : isCommentL ('#' :: a) = true := by
  obtain ⟨ys, hys⟩ := stripBy_cons_head a (show pyWs '#' = false by decide)
  unfold isCommentL stripWs
  rw [hys]
  have : ['#'].isPrefixOf ('#' :: ys) = true := isPrefixOf_one.mpr ⟨ys, rfl⟩
  rw [this]
  simp

theorem isCommentL_slashes (a : List Char) : isCommentL ('/' :: '/' :: a) = true := by
  obtain ⟨ys, hys⟩ := stripBy_head2 a (show pyWs '/' = false by decide)
    (show pyWs '/' = false by decide)
  unfold isCommentL stripWs
  rw [hys]
  have : ['/', '/'].isPrefixOf ('/' :: '/' :: ys) = true := isPrefixOf_two.mpr ⟨ys, rfl⟩
  rw [this]
  simp

/-- A scanner token is either a kept quote token (not classified as a
comment, untouched by space stripping, quote-delimited) or a dropped
comment token (marker-headed). -/
theorem tok_cases {stop : Char → Bool} {u t r : List Char}
    (htk : tryTok stop u = some (t, r)) :
    ((!isCommentL t) = true ∧ stripSpaces t = t ∧ keepB t = true ∧
      ∃ q a, (q = dq ∨ q = sq) ∧ t = q :: a ++ [q]) ∨
    ((!isCommentL t) = false ∧ keepB t = false ∧
      (t.head? = some '#' ∨ t.head? = some '/')) := by
  rcases tryTok_shape htk with ⟨a, rfl⟩ | ⟨a, rfl⟩ | ⟨a, rfl⟩ | ⟨a, rfl⟩
  · refine Or.inl ⟨?_, stripSpaces_span dq (Or.inl rfl) a,
      keepB_span dq (Or.inl rfl) a, dq, a, Or.inl rfl, rfl⟩
    rw [isCommentL_span dq (Or.inl rfl) a]
    rfl
  · refine Or.inl ⟨?_, stripSpaces_span sq (Or.inr rfl) a,
      keepB_span sq (Or.inr rfl) a, sq, a, Or.inr rfl, rfl⟩
    rw [isCommentL_span sq (Or.inr rfl) a]
    rfl
  · refine Or.inr ⟨?_, ?_, Or.inl rfl⟩
    · rw [isCommentL_hash a]
      rfl
    · unfold keepB
      have : ['#'].isPrefixOf ('#' :: a) = true := isPrefixOf_one.mpr ⟨a, rfl⟩
      rw [this]
      simp
  · refine Or.inr ⟨?_, ?_, Or.inr rfl⟩
    · rw [isCommentL_slashes a]
      rfl
    · unfold keepB
      have : ['/', '/'].isPrefixOf ('/' :: '/' :: a) = true :=
        isPrefixOf_two.mpr ⟨a, rfl⟩
      rw [this]
      simp

theorem joinKept_nil (keep : List Char → Bool) : joinKept keep [] = [] := rfl

theorem cleanPartsL_eq_none {s : List Char} (hf : findTok stopL [] s = none) :
    cleanPartsL s = stripSpaces s := by
  obtain ⟨h1, h2⟩ := findTok_none_elim2 hf
  unfold cleanPartsL
  rw [reSplit_none 0 hf, joinKept_cons, joinKept_nil,
    if_pos (show (!isCommentL s) = true by
      rw [isCommentL_false_of_markerFree h1 h2]; rfl)]
  simp

theorem cleanPartsL_eq_some {s p t r : List Char}
    (hf : findTok stopL [] s = some (p, t, r)) :
    cleanPartsL s = stripSpaces p ++
      ((if (!isCommentL t) = true then stripSpaces t else []) ++ cleanPartsL r) := by
  obtain ⟨hc, hds1⟩ := findTok_plain hf
  have hds : hasDoubleSlash p = false := by
    cases hd : hasDoubleSlash p with
    | false => rfl
    | true => rw [hasDoubleSlash_append_left (t.take 1) hd] at hds1; cases hds1
  unfold cleanPartsL
  rw [reSplit_some 0 hf, if_neg (by decide : ¬(0 : Nat) = 1),
    joinKept_cons, joinKept_cons,
    if_pos (show (!isCommentL p) = true by
      rw [isCommentL_false_of_markerFree hc hds]; rfl)]

theorem cleanPartsL_nil : cleanPartsL [] = [] := rfl

theorem isCommentL_nil : isCommentL [] = false := rfl

theorem cleanPartsL_newline (s2 : List Char) :
    ∃ ys, cleanPartsL ('\n' :: s2) = '\n' :: ys := by
  have hsp : isSp '\n' = false := by decide
  cases hf : findTok stopL [] ('\n' :: s2) with
  | none =>
    rw [cleanPartsL_eq_none hf]
    exact stripBy_cons_head s2 hsp
  | some x =>
    obtain ⟨p, t, r⟩ := x
    have ht : tryTok stopL ('\n' :: s2) = none := by
      refine tryTok_none_intro (by decide) (by decide) (by decide) ?_
      intro d t2 _ hcd
      exact absurd hcd.1 (by decide)
    have hp0 : ∃ p0, p = '\n' :: p0 := by
      have hf2 := hf
      simp only [findTok, ht] at hf2
      rw [findTok_shift] at hf2
      cases hf3 : findTok stopL [] s2 with
      | none => rw [hf3] at hf2; cases hf2
      | some y =>
        obtain ⟨p0, t0, r0⟩ := y
        rw [hf3] at hf2
        simp at hf2
        exact ⟨p0, hf2.1.symm⟩
    obtain ⟨p0, rfl⟩ := hp0
    rw [cleanPartsL_eq_some hf]
    obtain ⟨ys, hys⟩ := stripBy_cons_head p0 hsp
    rw [show stripSpaces ('\n' :: p0) = stripBy isSp ('\n' :: p0) from rfl, hys]
    exact ⟨ys ++ _, rfl⟩

theorem isCommentL_cons_safe {c : Char} (xs : List Char) (hws : pyWs c = false)
    (h2 : c ≠ '/') (h3 : c ≠ '#') : isCommentL (c :: xs) = false := by
  obtain ⟨ys, hys⟩ := stripBy_cons_head xs hws
  unfold isCommentL stripWs
  rw [hys]
  simp only [Bool.or_eq_false_iff]
  constructor
  · cases hp : ['/', '/'].isPrefixOf (c :: ys) with
    | false => rfl
    | true =>
      obtain ⟨rest, hr⟩ := isPrefixOf_two.mp hp
      exact absurd (List.cons_eq_cons.mp hr).1 h2
  · cases hp : ['#'].isPrefixOf (c :: ys) with
    | false => rfl
    | true =>
      obtain ⟨rest, hr⟩ := isPrefixOf_one.mp hp
      exact absurd (List.cons_eq_cons.mp hr).1 h3

/-- Appending a marker-free block `P` in front of a safe continuation
cannot create a whole-line comment: the first non-whitespace character is
either a safe character of `P` or the protected head of `Y`. -/
theorem isCommentL_append_safe (P Y : List Char)
    (hPc : P.contains '#' = false) (hPd : hasDoubleSlash P = false)
    (hYc : isCommentL Y = false)
    (hYh : ∀ c, Y.head? = some c → c ≠ '/') :
    isCommentL (P ++ Y) = false := by
  cases hP0 : List.dropWhile pyWs P with
  | nil =>
    have hall : ∀ c ∈ P, pyWs c = true := by
      intro c hc
      have := List.dropWhile_eq_nil_iff.mp hP0 c hc
      simpa using this
    unfold isCommentL stripWs
    rw [stripBy_all_append Y hall]
    exact hYc
  | cons c u =>
    have hdw : List.dropWhile pyWs (P ++ Y) = c :: (u ++ Y) := by
      rw [List.dropWhile_append, hP0]
      simp
    obtain ⟨ys, hys, hpre⟩ := stripBy_head_of_drop hdw
    unfold isCommentL stripWs
    rw [hys]
    have hcP : c ∈ P := (List.dropWhile_suffix pyWs).sublist.subset
      (by rw [hP0]; exact List.mem_cons_self c u)
    simp only [Bool.or_eq_false_iff]
    constructor
    · cases hp : ['/', '/'].isPrefixOf (c :: ys) with
      | false => rfl
      | true =>
        obtain ⟨rest, hr⟩ := isPrefixOf_two.mp hp
        obtain ⟨hc1, hr2⟩ := List.cons_eq_cons.mp hr
        obtain ⟨t2, ht2⟩ := hpre
        rw [hr2] at ht2
        cases u with
        | nil =>
          rw [List.nil_append] at ht2
          have hYhd : Y.head? = some '/' := by rw [← ht2]; rfl
          exact absurd rfl (hYh '/' hYhd)
        | cons e u1 =>
          have he : ('/' : Char) = e := by
            have h3 : ('/' :: (rest ++ t2) : List Char) = e :: (u1 ++ Y) := by
              simpa using ht2
            exact (List.cons_eq_cons.mp h3).1
          have hds2 : hasDoubleSlash (List.dropWhile pyWs P) = true := by
            rw [hP0, hc1, ← he]
            unfold hasDoubleSlash
            simp
          rw [hasDoubleSlash_sub (List.dropWhile_suffix pyWs).isInfix hds2] at hPd
          cases hPd
    · cases hp : ['#'].isPrefixOf (c :: ys) with
      | false => rfl
      | true =>
        obtain ⟨rest, hr⟩ := isPrefixOf_one.mp hp
        have hc1 : c = '#' := (List.cons_eq_cons.mp hr).1
        exact absurd (hc1 ▸ hcP) (not_mem_of_contains_false hPc)

/-- The per-line comment stripper never produces a line that the
whole-line comment test classifies as a comment. -/
theorem cleanPartsL_not_comment_bd : ∀ (n : Nat) (s : List Char),
    s.length ≤ n → isCommentL (cleanPartsL s) = false := by
  intro n
  induction n with
  | zero =>
    intro s hs
    have hnil : s = [] := List.eq_nil_of_length_eq_zero (Nat.le_zero.mp hs)
    subst hnil
    rw [cleanPartsL_nil, isCommentL_nil]
  | succ n ih =>
    intro s hs
    cases hf : findTok stopL [] s with
    | none =>
      rw [cleanPartsL_eq_none hf]
      obtain ⟨h1, h2⟩ := findTok_none_elim2 hf
      obtain ⟨h1s, h2s⟩ := markerFree_of_sub (stripBy_sub isSp s) h1 h2
      exact isCommentL_false_of_markerFree h1s h2s
    | some x =>
      obtain ⟨p, t, r⟩ := x
      rw [cleanPartsL_eq_some hf]
      have hlt : r.length < s.length := findTok_rest_length hf
      have hoR : isCommentL (cleanPartsL r) = false := ih r (by omega)
      obtain ⟨hrec, htne, htk⟩ := findTok_recon hf
      obtain ⟨hcp, hds1⟩ := findTok_plain hf
      have hdsp : hasDoubleSlash p = false := by
        cases hd : hasDoubleSlash p with
        | false => rfl
        | true => rw [hasDoubleSlash_append_left (t.take 1) hd] at hds1; cases hds1
      obtain ⟨hcP, hdsP⟩ := markerFree_of_sub (stripBy_sub isSp p) hcp hdsp
      rcases tok_cases htk with ⟨hkt, hst, _, q, a, hq, hteq⟩ | ⟨hkt, _, hhead⟩
      · subst hteq
        rw [if_pos hkt, hst]
        have hq2 : q ≠ '/' := by rcases hq with rfl | rfl <;> decide
        have hq3 : q ≠ '#' := by rcases hq with rfl | rfl <;> decide
        have hqws : pyWs q = false := by rcases hq with rfl | rfl <;> decide
        have hcons : ((q :: a ++ [q]) ++ cleanPartsL r) =
            q :: (a ++ [q] ++ cleanPartsL r) := by simp
        refine isCommentL_append_safe _ _ hcP hdsP ?_ ?_
        · rw [hcons]
          exact isCommentL_cons_safe _ hqws hq2 hq3
        · intro c hc
          rw [hcons] at hc
          rw [List.head?_cons] at hc
          cases hc
          exact hq2
      · rw [if_neg (by simp [hkt])]
        rw [List.nil_append]
        refine isCommentL_append_safe _ _ hcP hdsP hoR ?_
        intro c hc
        rcases tryTok_comment_rest htk hhead with hr0 | ⟨e, r2, hr2, he⟩
        · subst hr0
          rw [cleanPartsL_nil] at hc
          cases hc
        · have hnl : e = '\n' := by simpa [stopL] using he
          subst hnl hr2
          obtain ⟨ys2, hys2⟩ := cleanPartsL_newline r2
          rw [hys2, List.head?_cons] at hc
          cases hc
          decide

theorem cleanPartsL_not_comment (s : List Char) :
    isCommentL (cleanPartsL s) = false :=
  cleanPartsL_not_comment_bd s.length s le_rfl

/-- The full per-line cleaner never turns a non-comment line into a
comment line. -/
theorem cJSONFile_clean_not_comment (l : String)
    (h : cJSONFile_is_comment l = false) :
    cJSONFile_is_comment (cJSONFile_clean l) = false := by
  unfold cJSONFile_clean
  by_cases hm : containsMarker l.data
  · rw [if_pos hm]
    exact cleanPartsL_not_comment l.data
  · rw [if_neg hm]
    exact h

theorem filter_none {p : Char → Bool} : ∀ {l : List Char},
    (∀ c ∈ l, p c = false) → l.filter p = [] := by
  intro l h
  induction l with
  | nil => rfl
  | cons c cs ih =>
    rw [List.filter_cons, h c (List.mem_cons_self c cs)]
    exact ih (fun d hd => h d (List.mem_cons_of_mem c hd))

theorem eraseSpaces_append (a b : List Char) :
    eraseSpaces (a ++ b) = eraseSpaces a ++ eraseSpaces b := by
  unfold eraseSpaces
  simp

theorem eraseSpaces_strip (p : List Char) :
    eraseSpaces (stripSpaces p) = eraseSpaces p := by
  unfold stripSpaces
  obtain ⟨a, b, hdec, ha, hb⟩ := stripBy_decomp isSp p
  conv_rhs => rw [hdec]
  rw [eraseSpaces_append, eraseSpaces_append]
  have hae : eraseSpaces a = [] :=
    filter_none (fun c hc => by rw [ha c hc]; rfl)
  have hbe : eraseSpaces b = [] :=
    filter_none (fun c hc => by rw [hb c hc]; rfl)
  rw [hae, hbe]
  simp

theorem erase_flatten (L : List (List Char)) :
    eraseSpaces L.flatten = (L.map eraseSpaces).flatten :=
  List.filter_flatten _ L

theorem erase_joinKept (keep : List Char → Bool) (P : List (Bool × List Char)) :
    eraseSpaces (joinKept keep P) =
      eraseSpaces (((P.map Prod.snd).filter keep).flatten) := by
  unfold joinKept
  rw [erase_flatten, erase_flatten, List.map_map]
  congr 1
  refine List.map_congr_left ?_
  intro x _
  exact eraseSpaces_strip x

/-- The comment-token deletion both cleaners perform, without the space
stripping: join the split parts, dropping the marker-prefixed ones. -/
def delTok (stop : Char → Bool) (ms : Nat) (s : List Char) : List Char :=
  (((reSplit stop ms s).map Prod.snd).filter keepB).flatten

theorem delTok_none_eq {stop : Char → Bool} {s : List Char} (ms : Nat)
    (hf : findTok stop [] s = none) :
    delTok stop ms s = if keepB s then s else [] := by
  unfold delTok
  rw [reSplit_none ms hf]
  by_cases h : keepB s <;> simp [List.filter_cons, h]

theorem delTok_some_eq {stop : Char → Bool} {s p t r : List Char}
    (hf : findTok stop [] s = some (p, t, r)) :
    delTok stop 0 s = (if keepB p then p else []) ++
      ((if keepB t then t else []) ++ delTok stop 0 r) := by
  unfold delTok
  rw [reSplit_some 0 hf, if_neg (by decide : ¬(0 : Nat) = 1)]
  by_cases hp : keepB p <;> by_cases ht : keepB t <;>
    simp [List.filter_cons, hp, ht]

theorem erase_clean_buffer (S : String) (HT : tokCount stopB S.data ≤ 8) :
    eraseSpaces (cJSONStr_clean S).data = eraseSpaces (delTok stopB 0 S.data) := by
  show eraseSpaces (joinKept keepB (reSplit stopB 8 S.data)) = _
  rw [erase_joinKept]
  unfold delTok
  rw [reSplit_ms_eq HT]

theorem reSplit_parts_infix_bd (stop : Char → Bool) : ∀ (n : Nat) (s : List Char),
    s.length ≤ n → ∀ ms, ∀ pr ∈ reSplit stop ms s, pr.2 <:+: s := by
  intro n
  induction n with
  | zero =>
    intro s hs ms pr hpr
    have hnil : s = [] := List.eq_nil_of_length_eq_zero (Nat.le_zero.mp hs)
    subst hnil
    rw [reSplit_none ms (findTok_nil stop)] at hpr
    simp at hpr
    subst hpr
    exact ⟨[], [], rfl⟩
  | succ n ih =>
    intro s hs ms pr hpr
    cases hf : findTok stop [] s with
    | none =>
      rw [reSplit_none ms hf] at hpr
      simp at hpr
      subst hpr
      exact List.infix_refl s
    | some x =>
      obtain ⟨p, t, r⟩ := x
      obtain ⟨hrec, _, _⟩ := findTok_recon hf
      have hlt : r.length < s.length := findTok_rest_length hf
      have hpin : p <:+: s := ⟨[], t ++ r, by rw [← hrec]; simp⟩
      have htin : t <:+: s := ⟨p, r, hrec⟩
      have hrin : r <:+: s := ⟨p ++ t, [], by rw [← hrec]; simp⟩
      rw [reSplit_some ms hf] at hpr
      by_cases hm : ms = 1
      · rw [if_pos hm] at hpr
        simp at hpr
        rcases hpr with h | h | h <;> subst h
        · exact hpin
        · exact htin
        · exact hrin
      · rw [if_neg hm] at hpr
        rcases List.mem_cons.mp hpr with h | hpr2
        · subst h; exact hpin
        · rcases List.mem_cons.mp hpr2 with h | hpr3
          · subst h; exact htin
          · exact (ih r (by omega) (ms - 1) pr hpr3).trans hrin

theorem keepB_hash (a : List Char) : keepB ('#' :: a) = false := by
  unfold keepB
  have h : ['#'].isPrefixOf ('#' :: a) = true := isPrefixOf_one.mpr ⟨a, rfl⟩
  rw [h]
  simp

theorem keepB_slashes (a : List Char) : keepB ('/' :: '/' :: a) = false := by
  unfold keepB
  have h : ['/', '/'].isPrefixOf ('/' :: '/' :: a) = true := isPrefixOf_two.mpr ⟨a, rfl⟩
  rw [h]
  simp

theorem keep_eq_of_partOK {pr : Bool × List Char} (h : partOK pr) :
    (!isCommentL pr.2) = keepB pr.2 := by
  obtain ⟨htok, hplain⟩ := h
  cases hb : pr.1 with
  | false =>
    obtain ⟨h1, h2⟩ := hplain hb
    rw [isCommentL_false_of_markerFree h1 h2, keepB_true_of_markerFree h1 h2]
    rfl
  | true =>
    rcases htok hb with ⟨a, he⟩ | ⟨a, he⟩ | ⟨a, he⟩ | ⟨a, he⟩ <;> rw [he]
    · rw [isCommentL_span dq (Or.inl rfl) a, keepB_span dq (Or.inl rfl) a]
      rfl
    · rw [isCommentL_span sq (Or.inr rfl) a, keepB_span sq (Or.inr rfl) a]
      rfl
    · rw [isCommentL_hash a, keepB_hash a]
      rfl
    · rw [isCommentL_slashes a, keepB_slashes a]
      rfl

theorem filter_agree (s : List Char) :
    ((reSplit stopL 0 s).map Prod.snd).filter (fun p => !isCommentL p) =
      ((reSplit stopL 0 s).map Prod.snd).filter keepB := by
  refine List.filter_congr ?_
  intro x hx
  obtain ⟨pr, hpr, hsnd⟩ := List.mem_map.mp hx
  subst hsnd
  exact keep_eq_of_partOK (reSplit_parts stopL s pr hpr)

theorem delTok_markerFree {stop : Char → Bool} {s : List Char}
    (h1 : s.contains '#' = false) (h2 : hasDoubleSlash s = false) :
    delTok stop 0 s = s := by
  unfold delTok
  have hall : ∀ x ∈ (reSplit stop 0 s).map Prod.snd, keepB x = true := by
    intro x hx
    obtain ⟨pr, hpr, hsnd⟩ := List.mem_map.mp hx
    subst hsnd
    have hinf := reSplit_parts_infix_bd stop s.length s le_rfl 0 pr hpr
    obtain ⟨hOK1, hOK2⟩ := reSplit_parts stop s pr hpr
    cases hb : pr.1 with
    | false =>
      obtain ⟨hc, hd⟩ := hOK2 hb
      exact keepB_true_of_markerFree hc hd
    | true =>
      rcases hOK1 hb with ⟨a, he⟩ | ⟨a, he⟩ | ⟨a, he⟩ | ⟨a, he⟩
      · rw [he]
        exact keepB_span dq (Or.inl rfl) a
      · rw [he]
        exact keepB_span sq (Or.inr rfl) a
      · have hm : '#' ∈ s := hinf.mem (by rw [he]; exact List.mem_cons_self _ _)
        exact absurd hm (not_mem_of_contains_false h1)
      · have hds : hasDoubleSlash pr.2 = true := by
          rw [he]
          unfold hasDoubleSlash
          simp
        rw [hasDoubleSlash_sub hinf hds] at h2
        cases h2
  rw [List.filter_eq_self.mpr hall]
  exact reSplit_flatten stop 0 s

theorem erase_clean_line (l : String) :
    eraseSpaces (cJSONFile_clean l).data = eraseSpaces (delTok stopL 0 l.data) := by
  unfold cJSONFile_clean
  by_cases hm : containsMarker l.data = true
  · rw [if_pos hm]
    show eraseSpaces (joinKept (fun p => !isCommentL p) (reSplit stopL 0 l.data)) = _
    rw [erase_joinKept, filter_agree]
    rfl
  · rw [if_neg hm]
    unfold containsMarker at hm
    have h0 : (l.data.contains '#' || hasDoubleSlash l.data) = false := by
      cases h1 : (l.data.contains '#' || hasDoubleSlash l.data) with
      | false => rfl
      | true => exact absurd h1 hm
    obtain ⟨h1, h2⟩ := Bool.or_eq_false_iff.mp h0
    rw [delTok_markerFree h1 h2]

theorem takeDropWhile_uniform {p : Char → Bool} (hnl : p '\n' = false) :
    ∀ (u : List Char), ∃ a b, u = a ++ b ∧
      (∀ w, (u ++ '\n' :: w).takeWhile p = a) ∧
      (∀ w, (u ++ '\n' :: w).dropWhile p = b ++ '\n' :: w) := by
  intro u
  induction u with
  | nil =>
    refine ⟨[], [], rfl, ?_, ?_⟩
    · intro w
      rw [List.nil_append]
      exact List.takeWhile_cons_of_neg (by simp [hnl])
    · intro w
      rw [List.nil_append, List.dropWhile_cons_of_neg (by simp [hnl])]
  | cons c u2 ih =>
    obtain ⟨a, b, hab, hta, htd⟩ := ih
    by_cases hc : p c = true
    · refine ⟨c :: a, b, by rw [hab]; rfl, ?_, ?_⟩
      · intro w
        rw [List.cons_append, List.takeWhile_cons_of_pos hc, hta w]
      · intro w
        rw [List.cons_append, List.dropWhile_cons_of_pos hc, htd w]
    · refine ⟨[], c :: u2, rfl, ?_, ?_⟩
      · intro w
        rw [List.cons_append]
        exact List.takeWhile_cons_of_neg (by simpa using hc)
      · intro w
        rw [List.cons_append, List.dropWhile_cons_of_neg (by simpa using hc)]

theorem tryTok_uniform {stop : Char → Bool} (hstop : stop '\n' = true) :
    ∀ (u : List Char), '\n' ∉ u →
    (∃ t v, u = t ++ v ∧ t ≠ [] ∧
      ∀ w, tryTok stop (u ++ '\n' :: w) = some (t, v ++ '\n' :: w)) ∨
    (∀ w, tryTok stop (u ++ '\n' :: w) = none) := by
  intro u hu
  match u with
  | [] =>
    right
    intro w
    refine tryTok_none_intro (by decide) (by decide) (by decide) ?_
    intro d t2 _ hcd
    exact absurd hcd.1 (by decide)
  | c :: u2 =>
    have hu2 : '\n' ∉ u2 := fun h => hu (List.mem_cons_of_mem c h)
    have hcnl : c ≠ '\n' := fun h => hu (h ▸ List.mem_cons_self c u2)
    have hu2p : ∀ x ∈ u2, (decide (x ≠ '\n')) = true := by
      intro x hx
      simp only [decide_eq_true_iff]
      intro he
      exact hu2 (he ▸ hx)
    have htw : ∀ w : List Char, ((u2 ++ '\n' :: w).takeWhile (· ≠ '\n')) = u2 := by
      intro w
      rw [takeWhile_append_all ('\n' :: w) hu2p,
        List.takeWhile_cons_of_neg (by simp)]
      simp
    have hdw : ∀ w : List Char, ((u2 ++ '\n' :: w).dropWhile (· ≠ '\n')) = '\n' :: w := by
      intro w
      rw [dropWhile_append_all ('\n' :: w) hu2p,
        List.dropWhile_cons_of_neg (by simp)]
    by_cases h1 : c = dq
    · subst h1
      cases hsp : splitAtLast dq u2 with
      | some ab =>
        obtain ⟨a, b⟩ := ab
        obtain ⟨hab, hqb⟩ := splitAtLast_some hsp
        left
        refine ⟨dq :: a ++ [dq], b, by rw [hab]; simp, by simp, ?_⟩
        intro w
        have hstep : tryTok stop ((dq :: u2) ++ '\n' :: w) =
            (match splitAtLast dq ((u2 ++ '\n' :: w).takeWhile (· ≠ '\n')) with
              | some (a, b) =>
                some (dq :: a ++ [dq], b ++ (u2 ++ '\n' :: w).dropWhile (· ≠ '\n'))
              | none => none) := rfl
        rw [hstep, htw w, hsp]
        show some (dq :: a ++ [dq], b ++ (u2 ++ '\n' :: w).dropWhile (· ≠ '\n')) = _
        rw [hdw w]
      | none =>
        right
        intro w
        have hstep : tryTok stop ((dq :: u2) ++ '\n' :: w) =
            (match splitAtLast dq ((u2 ++ '\n' :: w).takeWhile (· ≠ '\n')) with
              | some (a, b) =>
                some (dq :: a ++ [dq], b ++ (u2 ++ '\n' :: w).dropWhile (· ≠ '\n'))
              | none => none) := rfl
        rw [hstep, htw w, hsp]
    · by_cases h2 : c = sq
      · subst h2
        cases hsp : splitAtLast sq u2 with
        | some ab =>
          obtain ⟨a, b⟩ := ab
          obtain ⟨hab, hqb⟩ := splitAtLast_some hsp
          left
          refine ⟨sq :: a ++ [sq], b, by rw [hab]; simp, by simp, ?_⟩
          intro w
          have hstep : tryTok stop ((sq :: u2) ++ '\n' :: w) =
              (match splitAtLast sq ((u2 ++ '\n' :: w).takeWhile (· ≠ '\n')) with
                | some (a, b) =>
                  some (sq :: a ++ [sq], b ++ (u2 ++ '\n' :: w).dropWhile (· ≠ '\n'))
                | none => none) := rfl
          rw [hstep, htw w, hsp]
          show some (sq :: a ++ [sq], b ++ (u2 ++ '\n' :: w).dropWhile (· ≠ '\n')) = _
          rw [hdw w]
        | none =>
          right
          intro w
          have hstep : tryTok stop ((sq :: u2) ++ '\n' :: w) =
              (match splitAtLast sq ((u2 ++ '\n' :: w).takeWhile (· ≠ '\n')) with
                | some (a, b) =>
                  some (sq :: a ++ [sq], b ++ (u2 ++ '\n' :: w).dropWhile (· ≠ '\n'))
                | none => none) := rfl
          rw [hstep, htw w, hsp]
      · by_cases h3 : c = '#'
        · subst h3
          obtain ⟨a, b, hab, hta, htd⟩ :=
            takeDropWhile_uniform (p := fun x => !stop x) (by simp [hstop]) u2
          left
          refine ⟨'#' :: a, b, by rw [hab]; rfl, by simp, ?_⟩
          intro w
          have hstep : tryTok stop (('#' :: u2) ++ '\n' :: w) =
              some ('#' :: (u2 ++ '\n' :: w).takeWhile (fun x => !stop x),
                (u2 ++ '\n' :: w).dropWhile (fun x => !stop x)) := rfl
          rw [hstep, hta w, htd w]
        · cases u2 with
          | nil =>
            right
            intro w
            refine tryTok_none_intro h1 h2 h3 ?_
            intro d t2 heq hcd
            have hd : d = '\n' := by
              have := (List.cons_eq_cons.mp heq.symm).1
              exact this
            rw [hd] at hcd
            exact absurd hcd.2 (by decide)
          | cons d u3 =>
            by_cases h4 : c = '/' ∧ d = '/'
            · obtain ⟨rfl, rfl⟩ := h4
              have hu3 : '\n' ∉ u3 := fun h => hu2 (List.mem_cons_of_mem _ h)
              obtain ⟨a, b, hab, hta, htd⟩ :=
                takeDropWhile_uniform (p := fun x => !stop x) (by simp [hstop]) u3
              left
              refine ⟨'/' :: '/' :: a, b, by rw [hab]; rfl, by simp, ?_⟩
              intro w
              have hstep : tryTok stop (('/' :: '/' :: u3) ++ '\n' :: w) =
                  some ('/' :: '/' :: (u3 ++ '\n' :: w).takeWhile (fun x => !stop x),
                    (u3 ++ '\n' :: w).dropWhile (fun x => !stop x)) := rfl
              rw [hstep, hta w, htd w]
            · right
              intro w
              refine tryTok_none_intro h1 h2 h3 ?_
              intro d2 t2 heq hcd
              have hd : d2 = d := by
                have := (List.cons_eq_cons.mp heq.symm).1
                exact this
              rw [hd] at hcd
              exact h4 hcd

theorem findTok_uniform {stop : Char → Bool} (hstop : stop '\n' = true) :
    ∀ (u : List Char), '\n' ∉ u →
    (∃ p t v, u = p ++ t ++ v ∧ t ≠ [] ∧
      ∀ w, findTok stop [] (u ++ '\n' :: w) = some (p, t, v ++ '\n' :: w)) ∨
    (∀ w, findTok stop [] (u ++ '\n' :: w) =
      (findTok stop [] w).map (fun x => (u ++ '\n' :: x.1, x.2.1, x.2.2))) := by
  intro u
  induction u with
  | nil =>
    intro _
    right
    intro w
    have htt : tryTok stop ('\n' :: w) = none := by
      refine tryTok_none_intro (by decide) (by decide) (by decide) ?_
      intro d t2 _ hcd
      exact absurd hcd.1 (by decide)
    show findTok stop [] ('\n' :: w) = _
    simp only [findTok, htt]
    rw [findTok_shift]
    cases hf : findTok stop [] w with
    | none => rfl
    | some x => simp
  | cons c u2 ih =>
    intro hu
    have hu2 : '\n' ∉ u2 := fun h => hu (List.mem_cons_of_mem c h)
    rcases tryTok_uniform hstop (c :: u2) hu with ⟨t, v, hsplit, hne, huni⟩ | hfail
    · left
      refine ⟨[], t, v, by simpa using hsplit, hne, ?_⟩
      intro w
      have h1 := huni w
      rw [List.cons_append] at h1
      show findTok stop [] (c :: (u2 ++ '\n' :: w)) = _
      simp only [findTok, h1]
      rfl
    · rcases ih hu2 with ⟨p, t, v, hsplit, hne, huni⟩ | hnone
      · left
        refine ⟨c :: p, t, v, by rw [hsplit]; rfl, hne, ?_⟩
        intro w
        have h1 := hfail w
        rw [List.cons_append] at h1
        show findTok stop [] (c :: (u2 ++ '\n' :: w)) = _
        simp only [findTok, h1]
        rw [findTok_shift, huni w]
        simp
      · right
        intro w
        have h1 := hfail w
        rw [List.cons_append] at h1
        show findTok stop [] (c :: (u2 ++ '\n' :: w)) = _
        simp only [findTok, h1]
        rw [findTok_shift, hnone w]
        cases hf : findTok stop [] w with
        | none => rfl
        | some x => simp

theorem keepB_cons_safe {c : Char} (z : List Char) (h1 : c ≠ '/') (h2 : c ≠ '#') :
    keepB (c :: z) = true := by
  unfold keepB
  simp only [Bool.not_eq_true', Bool.or_eq_false_iff]
  constructor
  · cases hp : ['/', '/'].isPrefixOf (c :: z) with
    | false => rfl
    | true =>
      obtain ⟨rest, hr⟩ := isPrefixOf_two.mp hp
      exact absurd (List.cons_eq_cons.mp hr).1 h1
  · cases hp : ['#'].isPrefixOf (c :: z) with
    | false => rfl
    | true =>
      obtain ⟨rest, hr⟩ := isPrefixOf_one.mp hp
      exact absurd (List.cons_eq_cons.mp hr).1 h2

theorem keepB_cons2 (c d : Char) (x y : List Char) :
    keepB (c :: d :: x) = keepB (c :: d :: y) := by
  have h2 : ∀ z : List Char,
      ['/', '/'].isPrefixOf (c :: d :: z) = (decide (c = '/') && decide (d = '/')) := by
    intro z
    cases hp : ['/', '/'].isPrefixOf (c :: d :: z) with
    | true =>
      obtain ⟨rest, hr⟩ := isPrefixOf_two.mp hp
      obtain ⟨hc, hr2⟩ := List.cons_eq_cons.mp hr
      obtain ⟨hd, _⟩ := List.cons_eq_cons.mp hr2
      simp [hc, hd]
    | false =>
      cases hc : decide (c = '/') with
      | false => simp
      | true =>
        cases hd : decide (d = '/') with
        | false => simp
        | true =>
          have hc2 := of_decide_eq_true hc
          have hd2 := of_decide_eq_true hd
          have hyes : ['/', '/'].isPrefixOf (c :: d :: z) = true :=
            isPrefixOf_two.mpr ⟨z, by rw [hc2, hd2]⟩
          rw [hyes] at hp
          exact absurd hp (by decide)
  have h1 : ∀ z : List Char, ['#'].isPrefixOf (c :: z) = decide (c = '#') := by
    intro z
    cases hp : ['#'].isPrefixOf (c :: z) with
    | true =>
      obtain ⟨rest, hr⟩ := isPrefixOf_one.mp hp
      simp [(List.cons_eq_cons.mp hr).1]
    | false =>
      cases hc : decide (c = '#') with
      | false => rfl
      | true =>
        have hc2 := of_decide_eq_true hc
        have hyes : ['#'].isPrefixOf (c :: z) = true := isPrefixOf_one.mpr ⟨z, by rw [hc2]⟩
        rw [hyes] at hp
        exact absurd hp (by decide)
  unfold keepB
  rw [h2 x, h2 y, h1 (d :: x), h1 (d :: y)]

theorem keepB_line_uniform (m x y : List Char) :
    keepB (m ++ '\n' :: x) = keepB (m ++ '\n' :: y) := by
  match m with
  | [] =>
    show keepB ('\n' :: x) = keepB ('\n' :: y)
    rw [keepB_cons_safe x (by decide) (by decide), keepB_cons_safe y (by decide) (by decide)]
  | [c] =>
    show keepB (c :: '\n' :: x) = keepB (c :: '\n' :: y)
    exact keepB_cons2 c '\n' x y
  | c :: d :: m2 =>
    show keepB (c :: d :: (m2 ++ '\n' :: x)) = keepB (c :: d :: (m2 ++ '\n' :: y))
    exact keepB_cons2 c d (m2 ++ '\n' :: x) (m2 ++ '\n' :: y)

theorem delTok_line_right {stop : Char → Bool} (m : List Char)
    (hnone : ∀ w, findTok stop [] (m ++ '\n' :: w) =
      (findTok stop [] w).map (fun x => (m ++ '\n' :: x.1, x.2.1, x.2.2)))
    (rest : List Char) :
    delTok stop 0 (m ++ '\n' :: rest) =
      delTok stop 0 (m ++ ['\n']) ++ delTok stop 0 rest := by
  have hfn : findTok stop [] (m ++ ['\n']) = none := by
    have h := hnone []
    rw [findTok_nil] at h
    simpa using h
  obtain ⟨hc1, hd1⟩ := findTok_none_elim2 hfn
  have hkm : keepB (m ++ ['\n']) = true := keepB_true_of_markerFree hc1 hd1
  have hdm : delTok stop 0 (m ++ ['\n']) = m ++ ['\n'] := by
    rw [delTok_none_eq 0 hfn, if_pos hkm]
  cases hf : findTok stop [] rest with
  | none =>
    have hfull : findTok stop [] (m ++ '\n' :: rest) = none := by
      rw [hnone rest, hf]
      rfl
    obtain ⟨hc2, hd2⟩ := findTok_none_elim2 hfull
    have hk2 : keepB (m ++ '\n' :: rest) = true := keepB_true_of_markerFree hc2 hd2
    have hk3 : keepB rest = true := by
      have hinf : rest <:+: (m ++ '\n' :: rest) := ⟨m ++ ['\n'], [], by simp⟩
      obtain ⟨hc3, hd3⟩ := markerFree_of_sub hinf hc2 hd2
      exact keepB_true_of_markerFree hc3 hd3
    rw [delTok_none_eq 0 hfull, if_pos hk2, delTok_none_eq 0 hf, if_pos hk3, hdm]
    simp
  | some x =>
    obtain ⟨p, t, r⟩ := x
    have hfull : findTok stop [] (m ++ '\n' :: rest) = some (m ++ '\n' :: p, t, r) := by
      rw [hnone rest, hf]
      rfl
    obtain ⟨hpc, hpd⟩ := findTok_plain hf
    have hkp : keepB p = true := by
      have hdp : hasDoubleSlash p = false := by
        cases hq : hasDoubleSlash p with
        | false => rfl
        | true =>
          rw [hasDoubleSlash_sub ⟨[], t.take 1, by simp⟩ hq] at hpd
          cases hpd
      exact keepB_true_of_markerFree hpc hdp
    have hkmp : keepB (m ++ '\n' :: p) = true := by
      rw [keepB_line_uniform m p []]
      exact hkm
    rw [delTok_some_eq hfull, delTok_some_eq hf, if_pos hkmp, if_pos hkp, hdm]
    simp

theorem delTok_line_append {stop : Char → Bool} (hstop : stop '\n' = true) :
    ∀ (n : Nat) (m : List Char), m.length ≤ n → '\n' ∉ m → ∀ (rest : List Char),
    delTok stop 0 (m ++ '\n' :: rest) =
      delTok stop 0 (m ++ ['\n']) ++ delTok stop 0 rest := by
  intro n
  induction n with
  | zero =>
    intro m hlen hm rest
    have hm0 : m = [] := by
      cases m with
      | nil => rfl
      | cons a l => simp at hlen
    subst hm0
    rcases findTok_uniform hstop [] hm with ⟨p, t, v, hsplit, hne, _⟩ | hnone
    · exfalso
      have hlen2 := congrArg List.length hsplit
      simp only [List.length_nil, List.length_append] at hlen2
      have ht1 : 0 < t.length := List.length_pos.mpr hne
      omega
    · exact delTok_line_right [] hnone rest
  | succ n ih =>
    intro m hlen hm rest
    rcases findTok_uniform hstop m hm with ⟨p, t, v, hsplit, hne, huni⟩ | hnone
    · have hfull : findTok stop [] (m ++ '\n' :: rest) = some (p, t, v ++ '\n' :: rest) :=
        huni rest
      have hline : findTok stop [] (m ++ ['\n']) = some (p, t, v ++ ['\n']) := huni []
      have hvm : '\n' ∉ v := by
        intro hv
        apply hm
        rw [hsplit]
        exact List.mem_append.mpr (Or.inr hv)
      have hvlen : v.length ≤ n := by
        have h3 := congrArg List.length hsplit
        simp only [List.length_append] at h3
        have ht1 : 0 < t.length := List.length_pos.mpr hne
        omega
      rw [delTok_some_eq hfull, delTok_some_eq hline, ih v hvlen hvm rest]
      simp [List.append_assoc]
    · exact delTok_line_right m hnone rest

theorem takeWhile_mem_congr {p q : Char → Bool} : ∀ {l : List Char},
    (∀ c ∈ l, p c = q c) → l.takeWhile p = l.takeWhile q := by
  intro l
  induction l with
  | nil => intro _; rfl
  | cons c cs ih =>
    intro h
    rw [List.takeWhile_cons, List.takeWhile_cons, h c (List.mem_cons_self c cs),
      ih (fun x hx => h x (List.mem_cons_of_mem c hx))]

theorem dropWhile_mem_congr {p q : Char → Bool} : ∀ {l : List Char},
    (∀ c ∈ l, p c = q c) → l.dropWhile p = l.dropWhile q := by
  intro l
  induction l with
  | nil => intro _; rfl
  | cons c cs ih =>
    intro h
    rw [List.dropWhile_cons, List.dropWhile_cons, h c (List.mem_cons_self c cs),
      ih (fun x hx => h x (List.mem_cons_of_mem c hx))]

theorem tryTok_congr {stop1 stop2 : Char → Bool} : ∀ (s : List Char),
    (∀ c ∈ s, stop1 c = stop2 c) → tryTok stop1 s = tryTok stop2 s := by
  intro s h
  match s with
  | [] => rfl
  | c :: t =>
    have ht : ∀ x ∈ t, stop1 x = stop2 x := fun x hx => h x (List.mem_cons_of_mem c hx)
    by_cases h1 : c = dq
    · subst h1; rfl
    · by_cases h2 : c = sq
      · subst h2; rfl
      · by_cases h3 : c = '#'
        · subst h3
          have htw : t.takeWhile (fun x => !stop1 x) = t.takeWhile (fun x => !stop2 x) :=
            takeWhile_mem_congr (fun x hx => by rw [ht x hx])
          have hdw : t.dropWhile (fun x => !stop1 x) = t.dropWhile (fun x => !stop2 x) :=
            dropWhile_mem_congr (fun x hx => by rw [ht x hx])
          have e1 : tryTok stop1 ('#' :: t) =
              some ('#' :: t.takeWhile (fun x => !stop1 x),
                t.dropWhile (fun x => !stop1 x)) := rfl
          have e2 : tryTok stop2 ('#' :: t) =
              some ('#' :: t.takeWhile (fun x => !stop2 x),
                t.dropWhile (fun x => !stop2 x)) := rfl
          rw [e1, e2, htw, hdw]
        · match t with
          | [] =>
            rw [tryTok_none_intro h1 h2 h3 (fun d t2 he _ => by cases he),
              tryTok_none_intro h1 h2 h3 (fun d t2 he _ => by cases he)]
          | d :: t2 =>
            by_cases h4 : c = '/' ∧ d = '/'
            · obtain ⟨rfl, rfl⟩ := h4
              have ht2 : ∀ x ∈ t2, stop1 x = stop2 x :=
                fun x hx => ht x (List.mem_cons_of_mem _ hx)
              have htw2 : t2.takeWhile (fun x => !stop1 x) =
                  t2.takeWhile (fun x => !stop2 x) :=
                takeWhile_mem_congr (fun x hx => by rw [ht2 x hx])
              have hdw2 : t2.dropWhile (fun x => !stop1 x) =
                  t2.dropWhile (fun x => !stop2 x) :=
                dropWhile_mem_congr (fun x hx => by rw [ht2 x hx])
              have e1 : tryTok stop1 ('/' :: '/' :: t2) =
                  some ('/' :: '/' :: t2.takeWhile (fun x => !stop1 x),
                    t2.dropWhile (fun x => !stop1 x)) := rfl
              have e2 : tryTok stop2 ('/' :: '/' :: t2) =
                  some ('/' :: '/' :: t2.takeWhile (fun x => !stop2 x),
                    t2.dropWhile (fun x => !stop2 x)) := rfl
              rw [e1, e2, htw2, hdw2]
            · have hni : ∀ (st : Char → Bool), tryTok st (c :: d :: t2) = none := by
                intro st
                refine tryTok_none_intro h1 h2 h3 ?_
                intro d2 t3 he hcd
                obtain ⟨hd2, _⟩ := List.cons_eq_cons.mp he
                exact h4 ⟨hcd.1, by rw [hd2]; exact hcd.2⟩
              rw [hni stop1, hni stop2]

theorem findTok_congr {stop1 stop2 : Char → Bool} : ∀ (s : List Char),
    (∀ c ∈ s, stop1 c = stop2 c) → findTok stop1 [] s = findTok stop2 [] s := by
  intro s
  induction s with
  | nil => intro _; rfl
  | cons c cs ih =>
    intro h
    have e := tryTok_congr (c :: cs) h
    cases h1 : tryTok stop1 (c :: cs) with
    | some x =>
      obtain ⟨t, r⟩ := x
      have h2 : tryTok stop2 (c :: cs) = some (t, r) := by rw [← e]; exact h1
      simp only [findTok, h1, h2]
    | none =>
      have h2 : tryTok stop2 (c :: cs) = none := by rw [← e]; exact h1
      simp only [findTok, h1, h2]
      rw [findTok_shift stop1 cs [c], findTok_shift stop2 cs [c],
        ih (fun x hx => h x (List.mem_cons_of_mem c hx))]

theorem reSplit_congr_bd {stop1 stop2 : Char → Bool} : ∀ (n : Nat) (s : List Char),
    s.length ≤ n → (∀ c ∈ s, stop1 c = stop2 c) → ∀ ms,
    reSplit stop1 ms s = reSplit stop2 ms s := by
  intro n
  induction n with
  | zero =>
    intro s hl _ ms
    have hs : s = [] := by
      cases s with
      | nil => rfl
      | cons a l => simp at hl
    subst hs
    rfl
  | succ n ih =>
    intro s hl h ms
    have e := findTok_congr s h
    cases h1 : findTok stop1 [] s with
    | none =>
      have h2 : findTok stop2 [] s = none := by rw [← e]; exact h1
      rw [reSplit_none ms h1, reSplit_none ms h2]
    | some x =>
      obtain ⟨p, t, r⟩ := x
      have h2 : findTok stop2 [] s = some (p, t, r) := by rw [← e]; exact h1
      obtain ⟨hrec, hne, _⟩ := findTok_recon h1
      have hrl : r.length ≤ n := by
        have h3 := congrArg List.length hrec
        simp only [List.length_append] at h3
        have ht1 : 0 < t.length := List.length_pos.mpr hne
        omega
      have hsub : ∀ c ∈ r, stop1 c = stop2 c := by
        intro c hc
        refine h c ?_
        rw [← hrec]
        simp [hc]
      rw [reSplit_some ms h1, reSplit_some ms h2, ih r hrl hsub (ms - 1)]

theorem stopB_eq_stopL {s : List Char} (hr : s.contains '\r' = false) :
    ∀ c ∈ s, stopB c = stopL c := by
  intro c hc
  have hne : c ≠ '\r' := by
    intro he
    exact absurd (he ▸ hc) (not_mem_of_contains_false hr)
  unfold stopB stopL
  have h1 : decide (c = '\r') = false := by
    cases h2 : decide (c = '\r') with
    | false => rfl
    | true => exact absurd (of_decide_eq_true h2) hne
  rw [h1]
  simp

theorem delTok_stopB_eq_stopL {s : List Char} (hr : s.contains '\r' = false) (ms : Nat) :
    delTok stopB ms s = delTok stopL ms s := by
  unfold delTok
  rw [reSplit_congr_bd s.length s le_rfl (stopB_eq_stopL hr) ms]

/-- Structural hypotheses on one source line under which the streaming
and buffer cleaners can be compared: the line is exactly its
newline-free body followed by a terminating newline, contains no
carriage return, and is not a whole-line comment. -/
def lineOK (l : String) : Bool :=
  (l.data.takeWhile (· ≠ '\n') ++ ['\n'] == l.data) &&
    !(l.data.contains '\r') && !cJSONFile_is_comment l

theorem lineOK_elim {l : String} (h : lineOK l = true) :
    ∃ m, l.data = m ++ ['\n'] ∧ '\n' ∉ m ∧
      l.data.contains '\r' = false ∧ cJSONFile_is_comment l = false := by
  unfold lineOK at h
  simp only [Bool.and_eq_true, Bool.not_eq_true', beq_iff_eq] at h
  obtain ⟨⟨h1, h2⟩, h3⟩ := h
  refine ⟨l.data.takeWhile (· ≠ '\n'), h1.symm, ?_, h2, h3⟩
  intro hmem
  have h4 := List.mem_takeWhile_imp hmem
  simp at h4

theorem erase_readJ_delTok : ∀ (lines : List String),
    (∀ l ∈ lines, lineOK l = true) →
    eraseSpaces (readJ lines).data =
      eraseSpaces (delTok stopB 0 (concatLines lines).data) := by
  intro lines
  induction lines with
  | nil => intro _; rfl
  | cons l rest ih =>
    intro hok
    obtain ⟨m, hld, hmnl, hrr, hcom⟩ := lineOK_elim (hok l (List.mem_cons_self l rest))
    have hB : stopB '\n' = true := by decide
    have hrl : readlinesJ (l :: rest) = cJSONFile_clean l :: readlinesJ rest := by
      unfold readlinesJ
      rw [List.filter_cons, if_pos (by rw [hcom]; rfl)]
      rfl
    have hrj : (readJ (l :: rest)).data = (cJSONFile_clean l).data ++ (readJ rest).data := by
      show ((readlinesJ (l :: rest)).map String.data).flatten = _
      rw [hrl]
      rfl
    have hcl : (concatLines (l :: rest)).data = m ++ '\n' :: (concatLines rest).data := by
      have h0 : (concatLines (l :: rest)).data = l.data ++ (concatLines rest).data := rfl
      rw [h0, hld]
      simp
    rw [hrj, eraseSpaces_append, hcl,
      delTok_line_append hB m.length m le_rfl hmnl (concatLines rest).data,
      eraseSpaces_append, erase_clean_line l, ← delTok_stopB_eq_stopL hrr 0, hld,
      ih (fun x hx => hok x (List.mem_cons_of_mem l hx))]

theorem drainGo_snd (ls : List String) : (drainGo ls).2 = none := by
  induction ls with
  | nil => rfl
  | cons l r ih => by_cases h : cJSONFile_is_comment l <;> simp [drainGo, h, ih]

theorem drainGo_fst (ls : List String) : (drainGo ls).1 = readlinesJ ls := by
  induction ls with
  | nil => rfl
  | cons l r ih =>
    by_cases h : cJSONFile_is_comment l <;>
      simp [drainGo, h, ih, readlinesJ, List.filter_cons]

end JsonComments

namespace JsonComments

/-! ## Claim theorems -/

/-- C1 (code bug evidence): on an input with nine whole-line `#` comments,
`cJSONStr._clean` leaves the ninth comment token in its output, because
`re.MULTILINE` (value 8) is passed as `re.split`'s `maxsplit` argument, so
only the first eight tokens are split out.  The cleaned result still
contains a `#` comment token. -/
theorem cJSONStr_clean_maxsplit_leaves_comment :
    cJSONStr_clean "#a\n#b\n#c\n#d\n#e\n#f\n#g\n#h\n#i" = "\n\n\n\n\n\n\n\n#i" ∧
    ((cJSONStr_clean "#a\n#b\n#c\n#d\n#e\n#f\n#g\n#h\n#i").data.contains '#') = true := by
  constructor <;> decide

/-- C2 (counterexample): for the source lines `["// c\n", "[1]"]` the
streaming `read` yields `"[1]"` while the buffer cleaner applied to the
concatenated raw content yields `"\n[1]"`; the difference is a newline
left behind by the whole-line comment, which no space-trimming
granularity accounts for (the two results differ even after deleting
every space character). -/
theorem readJ_ne_buffer_clean :
    readJ ["// c\n", "[1]"] = "[1]" ∧
    cJSONStr_clean (concatLines ["// c\n", "[1]"]) = "\n[1]" ∧
    eraseSpaces (readJ ["// c\n", "[1]"]).data ≠
      eraseSpaces (cJSONStr_clean (concatLines ["// c\n", "[1]"])).data := by
  refine ⟨by decide, by decide, by decide⟩

/-- C2 (amended): the streaming read agrees with the buffer cleaner on
the concatenated raw lines, modulo the per-line versus whole-buffer
space-trimming granularity (compared after deleting every space
character), PROVIDED each line is newline-terminated with no interior
newline or carriage return, no line is a whole-line comment (the
counterexample shows a comment line leaves a stray newline in the buffer
result only), and the scanner finds at most 8 tokens in the whole buffer
counting quoted-literal and comment tokens alike (`tokCount`): the
`re.MULTILINE`-as-`maxsplit` bug caps the buffer split at 8, and every
captured token — a quoted literal as much as a comment — consumes one
split, so for instance nine quoted literals ahead of a single comment
spend the whole budget on the quote tokens and leave that comment
uncleaned in the buffer result only. -/
theorem readJ_eq_buffer_clean (lines : List String)
    (hok : ∀ l ∈ lines, lineOK l = true)
    (htc : tokCount stopB (concatLines lines).data ≤ 8) :
    eraseSpaces (readJ lines).data =
      eraseSpaces (cJSONStr_clean (concatLines lines)).data := by
  rw [erase_clean_buffer (concatLines lines) htc]
  exact erase_readJ_delTok lines hok

/-- C2 (witness): the amended agreement claim at the concrete two-line
source `["a: 1, // note\n", "b: 2\n"]`. -/
theorem readJ_eq_buffer_clean_w :
    (∀ l ∈ ["a: 1, // note\n", "b: 2\n"], lineOK l = true) ∧
    tokCount stopB (concatLines ["a: 1, // note\n", "b: 2\n"]).data ≤ 8 ∧
    eraseSpaces (readJ ["a: 1, // note\n", "b: 2\n"]).data =
      eraseSpaces (cJSONStr_clean (concatLines ["a: 1, // note\n", "b: 2\n"])).data :=
  ⟨by decide, by decide, readJ_eq_buffer_clean _ (by decide) (by decide)⟩

/-- C3 (counterexample): in the line `# "a // b"` the `//` marker lies
strictly inside a well-formed double-quoted span with no quote characters
after it, yet neither cleaner preserves it: the `#` before the opening
quote makes the whole line a comment, so the buffer cleaner erases
everything and the streaming cleaner classifies the line as a whole-line
comment. -/
theorem marker_in_span_not_preserved :
    ("# \"a // b\"").data = "# ".data ++ dq :: "a // b".data ++ [dq] ∧
    hasDoubleSlash "a // b".data = true ∧
    ("a // b".data.contains dq || "a // b".data.contains sq) = false ∧
    cJSONStr_clean "# \"a // b\"" = "" ∧
    cJSONFile_is_comment "# \"a // b\"" = true := by
  refine ⟨by decide, by decide, by decide, by decide, by decide⟩

/-- C5 (counterexample): exhausting the stream inside a context scope
closes the handle, and the subsequent `__exit__` then raises
`AttributeError` (`self._file` is `None`, and `None.close` does not
exist) instead of completing without raising. -/
theorem exit_after_exhaustion_raises :
    (drainJ (fun _ => ["[1]\n"]) ⟨"f", "r", "utf-8", some ["[1]\n"]⟩).2.file = none ∧
    exitJ (drainJ (fun _ => ["[1]\n"]) ⟨"f", "r", "utf-8", some ["[1]\n"]⟩).2 =
      .error .attributeError := by
  exact ⟨rfl, rfl⟩

/-- C5 (amended): exiting the context completes without raising and
closes the handle on every exit path on which the handle is still open at
exit time; when the stream was already exhausted inside the scope the
handle is `None` and `__exit__` raises `AttributeError` instead (see the
counterexample). -/
theorem exitJ_closes_open_handle (st : JFile) (ls : List String)
    (h : st.file = some ls) : exitJ st = .ok { st with file := none } := by
  unfold exitJ closeJ
  rw [h]

/-- C5 (witness): the amended exit claim at a concrete open state. -/
theorem exitJ_closes_open_handle_w :
    exitJ ⟨"f", "r", "utf-8", some ["[1]\n"]⟩ =
      .ok ⟨"f", "r", "utf-8", none⟩ :=
  exitJ_closes_open_handle ⟨"f", "r", "utf-8", some ["[1]\n"]⟩ ["[1]\n"] rfl

/-- C6: constructing a streaming cleaner with any binary access mode —
any mode string containing the `b` flag — raises `ValueError` before any
file is touched (the result does not depend on the file system): the
seven modes in the `binary_modes` tuple through the constructor's
explicit check, and every other binary spelling, such as `"ab+"`,
through `open`'s binary-mode-with-encoding validation, since `_open`
always passes the string `encoding`.  Every mode without the `b` flag
constructs successfully with the source opened. -/
theorem cJSONFile_init_mode_check (mode : String) :
    (isBinaryMode mode = true →
      ∀ fs path enc, cJSONFile_init fs path mode enc = .error .valueError) ∧
    (isBinaryMode mode = false →
      ∀ fs path enc,
        cJSONFile_init fs path mode enc = .ok ⟨path, mode, enc, some (fs path)⟩) := by
  constructor
  · intro h fs path enc
    unfold cJSONFile_init
    by_cases hm : binary_modes.contains mode = true
    · rw [if_pos hm]
    · rw [if_neg hm, if_pos h]
  · intro h fs path enc
    unfold cJSONFile_init
    have hnot : ¬binary_modes.contains mode = true := by
      intro hc
      have hmem : mode ∈ binary_modes := by simpa [List.elem_iff] using hc
      have hb : isBinaryMode mode = true := by fin_cases hmem <;> decide
      rw [hb] at h
      exact absurd h (by decide)
    rw [if_neg hnot, if_neg (by simp [h])]

/-- C6 (witness): the mode check at the concrete binary modes `"rb"`
(rejected by the tuple check) and `"ab+"` (rejected by `open`'s
binary-mode-with-encoding validation), and at the text mode `"r"`
(constructs successfully). -/
theorem cJSONFile_init_mode_check_w :
    cJSONFile_init (fun _ => []) "p" "rb" "utf-8" = .error .valueError ∧
    cJSONFile_init (fun _ => []) "p" "ab+" "utf-8" = .error .valueError ∧
    cJSONFile_init (fun _ => []) "p" "r" "utf-8" = .ok ⟨"p", "r", "utf-8", some []⟩ :=
  ⟨(cJSONFile_init_mode_check "rb").1 (by decide) (fun _ => []) "p" "utf-8",
   (cJSONFile_init_mode_check "ab+").1 (by decide) (fun _ => []) "p" "utf-8",
   (cJSONFile_init_mode_check "r").2 (by decide) (fun _ => []) "p" "utf-8"⟩

/-- C9: iterating a freshly constructed streaming cleaner to exhaustion
closes the underlying handle, the produced lines are exactly the cleaned
non-comment lines of the source, and iterating the same wrapper again
without an explicit reopen transparently reopens the original path and
yields the same sequence. -/
theorem drainJ_exhausts_and_reiterates (fs : String → List String)
    (path mode enc : String) (st0 : JFile)
    (h : cJSONFile_init fs path mode enc = .ok st0) :
    (drainJ fs st0).2.file = none ∧
    (drainJ fs st0).1 = readlinesJ (fs path) ∧
    (drainJ fs (drainJ fs st0).2).1 = (drainJ fs st0).1 := by
  unfold cJSONFile_init at h
  split at h
  · exact absurd h (by simp)
  · split at h
    · exact absurd h (by simp)
    · have hst : st0 = ⟨path, mode, enc, some (fs path)⟩ := by
        cases h
        rfl
      subst hst
      refine ⟨?_, ?_, ?_⟩ <;>
        simp [drainJ, iterJ, drainGo_snd, drainGo_fst]

/-- C9 (witness): the reiteration claim at a concrete two-line source with
one whole-line comment. -/
theorem drainJ_exhausts_and_reiterates_w :
    (drainJ (fun _ => ["# c\n", "[1]\n"]) ⟨"p", "r", "e", some ["# c\n", "[1]\n"]⟩).2.file = none ∧
    (drainJ (fun _ => ["# c\n", "[1]\n"]) ⟨"p", "r", "e", some ["# c\n", "[1]\n"]⟩).1 =
      readlinesJ ["# c\n", "[1]\n"] ∧
    (drainJ (fun _ => ["# c\n", "[1]\n"])
        (drainJ (fun _ => ["# c\n", "[1]\n"]) ⟨"p", "r", "e", some ["# c\n", "[1]\n"]⟩).2).1 =
      (drainJ (fun _ => ["# c\n", "[1]\n"]) ⟨"p", "r", "e", some ["# c\n", "[1]\n"]⟩).1 :=
  drainJ_exhausts_and_reiterates (fun _ => ["# c\n", "[1]\n"]) "p" "r" "e"
    ⟨"p", "r", "e", some ["# c\n", "[1]\n"]⟩ rfl

/-- C10: once the handle is closed (`self._file = None`), every delegated
metadata attribute access — `closed`, `name` and `mode` included — raises
`AttributeError`, because delegation asks `hasattr(None, attribute)` and
`NoneType` has none of them; consequently no wrapper state ever reports
`closed = True`. -/
theorem getattrJ_closed_raises :
    (∀ (st : JFile) (a : FileAttr),
      st.file = none → getattrJ st a = .error .attributeError) ∧
    (∀ st : JFile, getattrJ st .closedAttr ≠ .ok (.boolV true)) := by
  constructor
  · intro st a h
    unfold getattrJ
    rw [h]
    rfl
  · intro st
    unfold getattrJ
    cases hf : st.file <;> simp [noneHasAttr]

/-- C10 (witness): a concrete closed wrapper raises `AttributeError` on
its `closed` attribute. -/
theorem getattrJ_closed_raises_w :
    getattrJ ⟨"p", "r", "e", none⟩ .closedAttr = .error .attributeError :=
  getattrJ_closed_raises.1 ⟨"p", "r", "e", none⟩ .closedAttr rfl

theorem noQuoteNoMarker_elim {s : List Char} (h : noQuoteNoMarker s = true) :
    s.contains dq = false ∧ s.contains sq = false ∧
    s.contains '#' = false ∧ hasDoubleSlash s = false := by
  unfold noQuoteNoMarker at h
  simp only [Bool.and_eq_true, Bool.not_eq_true'] at h
  exact ⟨h.1.1.1, h.1.1.2, h.1.2, h.2⟩

theorem noQuoteNoMarker_sub {a b : List Char} (hab : a <:+: b)
    (h : noQuoteNoMarker b = true) : noQuoteNoMarker a = true := by
  obtain ⟨h1, h2, h3, h4⟩ := noQuoteNoMarker_elim h
  unfold noQuoteNoMarker
  simp only [Bool.and_eq_true, Bool.not_eq_true']
  refine ⟨⟨⟨?_, ?_⟩, ?_⟩, ?_⟩
  · cases hc : a.contains dq with
    | false => rfl
    | true =>
      have : dq ∈ a := by simpa using hc
      exact absurd (hab.mem this) (not_mem_of_contains_false h1)
  · cases hc : a.contains sq with
    | false => rfl
    | true =>
      have : sq ∈ a := by simpa using hc
      exact absurd (hab.mem this) (not_mem_of_contains_false h2)
  · cases hc : a.contains '#' with
    | false => rfl
    | true =>
      have : '#' ∈ a := by simpa using hc
      exact absurd (hab.mem this) (not_mem_of_contains_false h3)
  · cases hc : hasDoubleSlash a with
    | false => rfl
    | true => rw [hasDoubleSlash_sub hab hc] at h4; cases h4

/-- On marker-free, quote-free input the buffer cleaner finds no token:
the whole input is one kept part, space-stripped. -/
theorem cJSONStr_clean_no_marker_strip (s : String)
    (h : noQuoteNoMarker s.data = true) :
    cJSONStr_clean s = ⟨stripSpaces s.data⟩ := by
  obtain ⟨h1, h2, h3, h4⟩ := noQuoteNoMarker_elim h
  have hf : findTok stopB [] s.data = none := by
    refine findTok_none_intro ?_ h4
    intro c hc
    refine ⟨?_, ?_, ?_⟩
    · intro he; subst he; exact (not_mem_of_contains_false h1) hc
    · intro he; subst he; exact (not_mem_of_contains_false h2) hc
    · intro he; subst he; exact (not_mem_of_contains_false h3) hc
  unfold cJSONStr_clean
  rw [reSplit_none 8 hf]
  have hk : keepB s.data = true := by
    unfold keepB
    simp only [Bool.not_eq_true', Bool.or_eq_false_iff]
    constructor
    · cases hp : ['/', '/'].isPrefixOf s.data with
      | false => rfl
      | true =>
        obtain ⟨rest, hr⟩ := isPrefixOf_two.mp hp
        rw [hr] at h4
        unfold hasDoubleSlash at h4
        simp at h4
    · cases hp : ['#'].isPrefixOf s.data with
      | false => rfl
      | true =>
        obtain ⟨rest, hr⟩ := isPrefixOf_one.mp hp
        rw [hr] at h3
        simp [List.contains_cons] at h3
  unfold joinKept
  simp [hk]

/-- C7 (amended): on input containing no quote characters and no comment
markers, the buffer cleaner returns the input with leading and trailing
plain spaces stripped; it is the identity exactly when the input neither
starts nor ends with a space character. -/
theorem cJSONStr_clean_identity_no_marker (s : String)
    (h : noQuoteNoMarker s.data = true)
    (hh : ∀ c ∈ s.data.head?, c ≠ ' ') (hl : ∀ c ∈ s.data.getLast?, c ≠ ' ') :
    cJSONStr_clean s = s := by
  rw [cJSONStr_clean_no_marker_strip s h]
  have hid : stripSpaces s.data = s.data := by
    refine stripBy_eq_self ?_ ?_
    · intro c hc
      have := hh c hc
      simpa [isSp] using this
    · intro c hc
      have := hl c hc
      simpa [isSp] using this
  rw [hid]

/-- C7 (witness): the amended identity claim at the concrete input
`"a: 1,\n"`. -/
theorem cJSONStr_clean_identity_no_marker_w :
    cJSONStr_clean "a: 1,\n" = "a: 1,\n" :=
  cJSONStr_clean_identity_no_marker "a: 1,\n" (by decide) (by decide) (by decide)

/-- C8 (amended): the buffer cleaner is idempotent on input containing no
quote characters and no comment markers: cleaning such input once strips
its outer spaces, and cleaning the cleaned text changes nothing further.
(With quote characters present idempotence fails; see the
counterexample.) -/
theorem cJSONStr_clean_idem_no_marker (s : String)
    (h : noQuoteNoMarker s.data = true) :
    cJSONStr_clean (cJSONStr_clean s) = cJSONStr_clean s := by
  rw [cJSONStr_clean_no_marker_strip s h]
  have h2 : noQuoteNoMarker (stripSpaces s.data) = true :=
    noQuoteNoMarker_sub (stripBy_sub isSp s.data) h
  rw [cJSONStr_clean_no_marker_strip ⟨stripSpaces s.data⟩ h2]
  show String.mk (stripBy isSp (stripBy isSp s.data)) = _
  rw [stripBy_idem]
  rfl

/-- C8 (witness): idempotence at the concrete marker-free input
`" a: 1 "`. -/
theorem cJSONStr_clean_idem_no_marker_w :
    cJSONStr_clean (cJSONStr_clean " a: 1 ") = cJSONStr_clean " a: 1 " :=
  cJSONStr_clean_idem_no_marker " a: 1 " (by decide)

theorem readlineJ_not_comment : ∀ lines : List String,
    cJSONFile_is_comment (readlineJ lines).1 = false := by
  intro lines
  induction lines with
  | nil => rfl
  | cons a r ih =>
    by_cases ha : cJSONFile_is_comment a = true
    · simp [readlineJ, ha, ih]
    · have ha2 : cJSONFile_is_comment a = false := by
        cases hb : cJSONFile_is_comment a
        · rfl
        · exact absurd hb ha
      simp [readlineJ, ha]
      exact cJSONFile_clean_not_comment a ha2

theorem readlinesJ_not_comment (lines : List String) :
    ∀ o ∈ readlinesJ lines, cJSONFile_is_comment o = false := by
  intro o ho
  unfold readlinesJ at ho
  simp at ho
  obtain ⟨a, ⟨_, hac⟩, rfl⟩ := ho
  exact cJSONFile_clean_not_comment a (by simpa using hac)

/-- C4: a whole-line comment never surfaces from any line-based read.
The `__next__` loop produces exactly the cleaned non-comment lines (so a
skipped comment line contributes nothing, not even an empty string, and
`read` — the join of `readlines` — contains no contribution either); a
comment line is never an element of `readlines`; and `readline` never
returns it (it returns the next cleaned non-comment line or the empty
end-of-stream marker). -/
theorem comment_lines_never_surface (lines : List String) (l : String)
    (h : cJSONFile_is_comment l = true) :
    (drainGo lines).1 = readlinesJ lines ∧
    l ∉ readlinesJ lines ∧
    (readlineJ lines).1 ≠ l := by
  refine ⟨drainGo_fst lines, ?_, ?_⟩
  · intro hmem
    have hfalse := readlinesJ_not_comment lines l hmem
    rw [h] at hfalse
    cases hfalse
  · intro heq
    have hfalse := readlineJ_not_comment lines
    rw [heq, h] at hfalse
    cases hfalse

/-- C4 (witness): the non-surfacing claim at a concrete source whose
first line is a whole-line comment. -/
theorem comment_lines_never_surface_w :
    (drainGo ["# c\n", "[1]\n"]).1 = readlinesJ ["# c\n", "[1]\n"] ∧
    "# c\n" ∉ readlinesJ ["# c\n", "[1]\n"] ∧
    (readlineJ ["# c\n", "[1]\n"]).1 ≠ "# c\n" :=
  comment_lines_never_surface ["# c\n", "[1]\n"] "# c\n" (by decide)

/-- C7 (counterexample): the input `" a "` contains no quoted string and
no comment marker, yet the buffer cleaner is not the identity on it: the
single kept part is stripped of its surrounding spaces. -/
theorem clean_not_identity_on_plain :
    noQuoteNoMarker (" a ").data = true ∧
    cJSONStr_clean " a " = "a" ∧ (" a " : String) ≠ "a" := by
  refine ⟨by decide, by decide, by decide⟩

/-- C8 (counterexample): `a "b" c` contains no comment token at all (so it
is already-cleaned text), yet cleaning changes it to `a"b"c`; moreover
cleaning is not even idempotent up to that first application: for the
nine-token input below, whose cleaned form contains no comment token,
cleaning the cleaned text changes it again (the `maxsplit` cap left raw
spacing in the tail on the first pass). -/
theorem clean_not_idempotent :
    noMarker ("a \"b\" c").data = true ∧
    cJSONStr_clean "a \"b\" c" = "a\"b\"c" ∧ ("a \"b\" c" : String) ≠ "a\"b\"c" ∧
    noMarker (cJSONStr_clean "#1\n#2\n#3\n#4\n#5\n#6\n#7\n#8\n a \"b\" c ").data = true ∧
    cJSONStr_clean (cJSONStr_clean "#1\n#2\n#3\n#4\n#5\n#6\n#7\n#8\n a \"b\" c ") ≠
      cJSONStr_clean "#1\n#2\n#3\n#4\n#5\n#6\n#7\n#8\n a \"b\" c " := by
  refine ⟨by decide, by decide, by decide, by decide, by decide⟩

end JsonComments
